import Mathlib

/-!
Verification of the TerrainCreator height-field core.

The JavaScript source is shallowly embedded over the real numbers:
float arithmetic becomes real arithmetic, `Math.hypot` becomes
`Real.sqrt` of a sum of squares, `Math.cos` becomes `Real.cos`,
`Math.floor`/`Math.round`/`Math.ceil` become `Int.floor`/`round`/`Int.ceil`.
The position buffer of the terrain mesh is represented by its y-channel
only: a function `Heights : ℕ → ℝ` sending the vertex index `v`
(row-major, `v = row * (widthSegments+1) + col`) to `arr[v*3+1]`.
-/

namespace TerrainCreator

/-- JS helper `_clamp(x, a, b) = Math.min(b, Math.max(a, x))` on reals. -/
def clampR (x a b : ℝ) : ℝ := min b (max a x)

/-- The same clamp applied to integers (used after `Math.floor`). -/
def clampI (x a b : ℤ) : ℤ := min b (max a x)

/-- Terrain configuration `appState.config` (`main.js`):
tile counts, world units per tile edge, and the height clamp band. -/
structure Config where
  TILES_X : ℕ
  TILES_Y : ℕ
  TILE_SIZE : ℝ
  MIN_H : ℝ
  MAX_H : ℝ

/-- `geometry.parameters` of the `THREE.PlaneGeometry` terrain mesh. -/
structure GeomParams where
  width : ℝ
  height : ℝ
  widthSegments : ℕ
  heightSegments : ℕ

/-- The y-channel of the position attribute, by vertex index. -/
def Heights : Type := ℕ → ℝ

/-- Vertices per row of the fine grid. -/
def GeomParams.vpr (g : GeomParams) : ℕ := g.widthSegments + 1

/-- Total vertex count `(widthSegments+1) * (heightSegments+1)`. -/
def GeomParams.count (g : GeomParams) : ℕ :=
  (g.widthSegments + 1) * (g.heightSegments + 1)

/-- Row-major vertex index of fine-grid vertex `(col, row)`. -/
def vIndex (g : GeomParams) (col row : ℕ) : ℕ := row * g.vpr + col

/-- Local x-coordinate of fine-grid column `col`
(`PlaneGeometry` after `rotateX(-π/2)`): `-width/2 + col * width/widthSegments`. -/
noncomputable def vertexX (g : GeomParams) (col : ℕ) : ℝ :=
  -g.width / 2 + col * (g.width / g.widthSegments)

/-- Local z-coordinate of fine-grid row `row`. -/
noncomputable def vertexZ (g : GeomParams) (row : ℕ) : ℝ :=
  -g.height / 2 + row * (g.height / g.heightSegments)

/-- `worldToTile(localX, localZ, config)` from `sculpt.js`:
normalize into `[0,1]`, scale by the tile counts, floor, clamp. -/
noncomputable def worldToTile (localX localZ : ℝ) (config : Config) : ℤ × ℤ :=
  let W : ℝ := config.TILES_X * config.TILE_SIZE
  let H : ℝ := config.TILES_Y * config.TILE_SIZE
  let u := (localX + W / 2) / W
  let v := (localZ + H / 2) / H
  (clampI ⌊u * config.TILES_X⌋ 0 ((config.TILES_X : ℤ) - 1),
   clampI ⌊v * config.TILES_Y⌋ 0 ((config.TILES_Y : ℤ) - 1))

lemma clampI_mem (f n : ℤ) (hn : 1 ≤ n) :
    0 ≤ clampI f 0 (n - 1) ∧ clampI f 0 (n - 1) < n := by
  unfold clampI; omega

/-- C5: for every local coordinate input, including negative and arbitrarily
large finite values, `worldToTile` returns a pair `(i, j)` with
`0 ≤ i < TILES_X` and `0 ≤ j < TILES_Y`. -/
theorem worldToTile_in_range (localX localZ : ℝ) (config : Config)
    (hx : 1 ≤ config.TILES_X) (hy : 1 ≤ config.TILES_Y) :
    0 ≤ (worldToTile localX localZ config).1 ∧
      (worldToTile localX localZ config).1 < config.TILES_X ∧
      0 ≤ (worldToTile localX localZ config).2 ∧
      (worldToTile localX localZ config).2 < config.TILES_Y := by
  have h1 := clampI_mem
    ⌊(localX + (config.TILES_X : ℝ) * config.TILE_SIZE / 2) /
      ((config.TILES_X : ℝ) * config.TILE_SIZE) * config.TILES_X⌋
    (config.TILES_X : ℤ) (by exact_mod_cast hx)
  have h2 := clampI_mem
    ⌊(localZ + (config.TILES_Y : ℝ) * config.TILE_SIZE / 2) /
      ((config.TILES_Y : ℝ) * config.TILE_SIZE) * config.TILES_Y⌋
    (config.TILES_Y : ℤ) (by exact_mod_cast hy)
  exact ⟨h1.1, h1.2, h2.1, h2.2⟩

/-- C5 witness: a concrete evaluation of the range theorem at a 30×30 grid
with a far-out-of-range negative input. -/
theorem worldToTile_in_range_witness :
    0 ≤ (worldToTile (-123456) 98765 ⟨30, 30, 32, -200, 300⟩).1 ∧
      (worldToTile (-123456) 98765 ⟨30, 30, 32, -200, 300⟩).1 < (30 : ℕ) ∧
      0 ≤ (worldToTile (-123456) 98765 ⟨30, 30, 32, -200, 300⟩).2 ∧
      (worldToTile (-123456) 98765 ⟨30, 30, 32, -200, 300⟩).2 < (30 : ℕ) :=
  worldToTile_in_range (-123456) 98765 ⟨30, 30, 32, -200, 300⟩
    (by norm_num) (by norm_num)

/-- Brush modes of `uiState.mode`. -/
inductive Mode
  | raise
  | lower
  | smooth
deriving DecidableEq

/-- `worldBrushRadius = uiState.radius * TILE_SIZE` (`sculpt.js`). -/
noncomputable def worldBrushRadius (config : Config) (radius : ℝ) : ℝ :=
  radius * config.TILE_SIZE

/-- `hitVertX = Math.round(u * widthSegments)` with `u = (localHit.x + width/2)/width`. -/
noncomputable def hitVertX (g : GeomParams) (hx : ℝ) : ℤ :=
  round ((hx + g.width / 2) / g.width * g.widthSegments)

/-- `hitVertZ = Math.round(v * heightSegments)` with `v = (localHit.z + height/2)/height`. -/
noncomputable def hitVertZ (g : GeomParams) (hz : ℝ) : ℤ :=
  round ((hz + g.height / 2) / g.height * g.heightSegments)

/-- `vertexCell = width / widthSegments` (`sculpt.js`, bounded-scan revision). -/
noncomputable def vertexCell (g : GeomParams) : ℝ := g.width / g.widthSegments

/-- `radiusVerts = Math.ceil(worldBrushRadius / vertexCell)`. -/
noncomputable def radiusVerts (config : Config) (g : GeomParams) (radius : ℝ) : ℤ :=
  ⌈worldBrushRadius config radius / vertexCell g⌉

/-- The distance the bounded-scan brush uses for vertex `(x, z)`:
`Math.hypot((x - hitVertX) * vertexCell, (z - hitVertZ) * vertexCell)`.
Note both axes are scaled by `vertexCell = width / widthSegments`. -/
noncomputable def sculptDist (g : GeomParams) (hx hz : ℝ) (x z : ℤ) : ℝ :=
  Real.sqrt ((((x : ℝ) - hitVertX g hx) * vertexCell g) ^ 2 +
    (((z : ℝ) - hitVertZ g hz) * vertexCell g) ^ 2)

/-- The box of vertices `[startX, endX] × [startZ, endZ]` visited by the
bounded-scan brush. -/
noncomputable def sculptBox (config : Config) (g : GeomParams) (hx hz radius : ℝ) :
    Finset (ℤ × ℤ) :=
  Finset.Icc (max 0 (hitVertX g hx - radiusVerts config g radius))
      (min (g.widthSegments : ℤ) (hitVertX g hx + radiusVerts config g radius)) ×ˢ
    Finset.Icc (max 0 (hitVertZ g hz - radiusVerts config g radius))
      (min (g.heightSegments : ℤ) (hitVertZ g hz + radiusVerts config g radius))

open Classical in
/-- The `picks` collected by the smooth branch of the bounded-scan brush:
vertices of the box whose `sculptDist` is less than `worldBrushRadius`. -/
noncomputable def sculptPicks (config : Config) (g : GeomParams) (hx hz radius : ℝ) :
    Finset (ℤ × ℤ) :=
  (sculptBox config g hx hz radius).filter
    (fun p => sculptDist g hx hz p.1 p.2 < worldBrushRadius config radius)

open Classical in
/-- `applySculpt` from `sculpt.js`, bounded-scan revision (lines 240–311):
snap the hit point to the nearest fine vertex, visit the `radiusVerts` box
around it, and smooth towards the mean / raise / lower with cosine falloff,
clamping raise and lower to `[MIN_H, MAX_H]`. -/
noncomputable def applySculptBounded (config : Config) (g : GeomParams)
    (hx hz radius step : ℝ) (mode : Mode) (h : Heights) : Heights :=
  let R := worldBrushRadius config radius
  match mode with
  | Mode.smooth =>
    let picks := sculptPicks config g hx hz radius
    if picks = ∅ then h
    else
      let avg : ℝ := (∑ p ∈ picks, h (p.2.toNat * g.vpr + p.1.toNat)) / picks.card
      fun vi =>
        if (((vi % g.vpr : ℕ) : ℤ), ((vi / g.vpr : ℕ) : ℤ)) ∈ sculptPicks config g hx hz radius
        then h vi + (avg - h vi) * 0.1
        else h vi
  | _ =>
    let sign : ℝ := if mode = Mode.lower then -1 else 1
    fun vi =>
      let x : ℤ := ((vi % g.vpr : ℕ) : ℤ)
      let z : ℤ := ((vi / g.vpr : ℕ) : ℤ)
      if (x, z) ∈ sculptBox config g hx hz radius ∧ sculptDist g hx hz x z < R
      then clampR (h vi + Real.cos (sculptDist g hx hz x z / R * (Real.pi / 2)) * step * sign)
          config.MIN_H config.MAX_H
      else h vi

/-- `applySculpt` from `sculpt.js`, full-scan revision (lines 394–446):
visit every vertex of the mesh, measure XZ distance from the exact local hit
point; smooth adds `delta * 0.1`, raise/lower add `delta * sign`, and the
result is clamped to `[MIN_H, MAX_H]` in all modes. -/
noncomputable def applySculptFull (config : Config) (g : GeomParams)
    (hx hz radius step : ℝ) (mode : Mode) (h : Heights) : Heights :=
  let R := worldBrushRadius config radius
  fun vi =>
    let col := vi % g.vpr
    let row := vi / g.vpr
    let d := Real.sqrt ((vertexX g col - hx) ^ 2 + (vertexZ g row - hz) ^ 2)
    if vi < g.count ∧ d < R then
      let falloff := Real.cos (d / R * (Real.pi / 2))
      let delta := falloff * step
      let sign : ℝ := if mode = Mode.lower then -1 else 1
      let inc : ℝ := if mode = Mode.smooth then delta * 0.1 else delta * sign
      clampR (h vi + inc) config.MIN_H config.MAX_H
    else h vi

/-- `tileCornerIndices(ti, tj)` of the tile-corner `applySculpt` revision. -/
def tileCornerIndices (config : Config) (ti tj : ℤ) : Finset ℤ :=
  let vpr : ℤ := (config.TILES_X : ℤ) + 1
  {tj * vpr + ti, tj * vpr + ti + 1, (tj + 1) * vpr + ti, (tj + 1) * vpr + ti + 1}

/-- The clamped vertex box `set` built by the smooth branch of the
tile-corner `applySculpt` (vertex indices `y * vpr + x` with
`i0 ≤ x ≤ i1`, `j0 ≤ y ≤ j1`). -/
def cornerSmoothBox (config : Config) (i j : ℤ) (radius : ℕ) : Finset ℤ :=
  let vpr : ℤ := (config.TILES_X : ℤ) + 1
  let i0 := max 0 (i - radius)
  let j0 := max 0 (j - radius)
  let i1 := min (config.TILES_X : ℤ) (i + radius + 1)
  let j1 := min (config.TILES_Y : ℤ) (j + radius + 1)
  (Finset.Icc i0 i1 ×ˢ Finset.Icc j0 j1).image (fun p => p.2 * vpr + p.1)

open Classical in
/-- The in-bounds tiles within the (tile-space) brush radius visited by the
raise/lower branch of the tile-corner `applySculpt`. -/
noncomputable def cornerTiles (config : Config) (i j : ℤ) (radius : ℕ) : Finset (ℤ × ℤ) :=
  (Finset.Icc (i - radius) (i + radius) ×ˢ Finset.Icc (j - radius) (j + radius)).filter
    (fun p => 0 ≤ p.1 ∧ 0 ≤ p.2 ∧ p.1 < config.TILES_X ∧ p.2 < config.TILES_Y ∧
      Real.sqrt (((p.1 - i : ℤ) : ℝ) ^ 2 + ((p.2 - j : ℤ) : ℝ) ^ 2) ≤ radius)

/-- The entries of the accumulation `map` that touch vertex `v`: the visited
tiles having `v` among their four corner indices. -/
noncomputable def cornerTouching (config : Config) (i j : ℤ) (radius : ℕ) (v : ℕ) :
    Finset (ℤ × ℤ) :=
  (cornerTiles config i j radius).filter (fun p => (v : ℤ) ∈ tileCornerIndices config p.1 p.2)

/-- `delta = sign * step * fall` for one tile of the tile-corner raise/lower
branch, with linear falloff `1 - d / radius` (and `1` when `radius = 0`). -/
noncomputable def cornerDelta (i j : ℤ) (radius : ℕ) (step sign : ℝ) (p : ℤ × ℤ) : ℝ :=
  sign * step * (if radius = 0 then 1
    else 1 - Real.sqrt (((p.1 - i : ℤ) : ℝ) ^ 2 + ((p.2 - j : ℤ) : ℝ) ^ 2) / radius)

open Classical in
/-- `applySculpt` from `sculpt.js`, tile-corner revision (lines 80–130):
map the hit to a tile via `worldToTile`; smooth averages a clamped box of
grid-line vertices and moves each 15% towards the mean; raise/lower
accumulate linear-falloff deltas on the four corners of each tile within
the (tile-space) radius and clamp once per touched vertex. -/
noncomputable def applySculptCorner (config : Config)
    (hx hz : ℝ) (radius : ℕ) (step : ℝ) (mode : Mode) (h : Heights) : Heights :=
  let ij := worldToTile hx hz config
  let i := ij.1
  let j := ij.2
  match mode with
  | Mode.smooth =>
    let box := cornerSmoothBox config i j radius
    let avg : ℝ := if box.card = 0 then 0 else (∑ vi ∈ box, h vi.toNat) / box.card
    fun v => if (v : ℤ) ∈ box then h v + (avg - h v) * 0.15 else h v
  | _ =>
    let sign : ℝ := if mode = Mode.lower then -1 else 1
    fun v =>
      let touching := cornerTouching config i j radius v
      if touching ≠ ∅
      then clampR (h v + ∑ p ∈ touching, cornerDelta i j radius step sign p)
          config.MIN_H config.MAX_H
      else h v

/-- `randomizeTerrain` (`terrain.js` 362–371): add `(Math.random() - 0.5) * 2.5`
to every stored height, with no clamp. `rand v` is the `Math.random()` draw
made at vertex `v`; `count` is the vertex count of the position attribute. -/
noncomputable def randomizeTerrain (count : ℕ) (rand : ℕ → ℝ) (h : Heights) : Heights :=
  fun v => if v < count then h v + (rand v - 0.5) * 2.5 else h v

/-- JS `Math.trunc`-style rounding (the rounding used by the `%` operator). -/
noncomputable def jsTrunc (x : ℝ) : ℝ := if 0 ≤ x then (⌊x⌋ : ℝ) else (⌈x⌉ : ℝ)

/-- The JS remainder operator `a % b` on numbers. -/
noncomputable def jsMod (a b : ℝ) : ℝ := a - b * jsTrunc (a / b)

/-- `_worley2(u, v, cell, pts)` from `part_012` (also in
`vendor/THREE.Terrain.mjs`): nearest distance to 16 pseudo-random feature
points, then `1.0 - _clamp(md*2, 0, 1)*2 + -1`. -/
noncomputable def worley2 (u v cellScale : ℝ) (pts : ℕ) : ℝ :=
  let px : ℕ → ℝ := fun i => jsMod (Real.sin (i * 127.1) * 43758.5453) 1
  let py : ℕ → ℝ := fun i => jsMod (Real.sin (i * 311.7) * 12543.1234) 1
  let d : ℕ → ℝ := fun i =>
    Real.sqrt ((jsMod (u * cellScale) 1 - px i) ^ 2 + (jsMod (v * cellScale) 1 - py i) ^ 2)
  let md := (List.range pts).foldl (fun m i => min m (d i)) 1e9
  1.0 - clampR (md * 2) 0 1 * 2 + -1

/-- The vertex-writing loop of `applyHeightmapTemplate` (`part_012` 483–516):
every height is overwritten with `minH + ((n + 1) * 0.5) * range`, where
`minH = -80`, `maxH = 120` are hardcoded and `n = f u v` is the switch's
template sample at `(u, v) = (ix / widthSegments, jy / heightSegments)`. -/
noncomputable def applyHeightmapTemplateWith (g : GeomParams) (f : ℝ → ℝ → ℝ)
    (h : Heights) : Heights :=
  fun v =>
    if v < g.count then
      let minH : ℝ := -80
      let maxH : ℝ := 120
      let range := maxH - minH
      let u : ℝ := (v % g.vpr : ℕ) / g.widthSegments
      let vv : ℝ := (v / g.vpr : ℕ) / g.heightSegments
      minH + ((f u vv + 1) * 0.5) * range
    else h v

/-- `applyHeightmapTemplate` specialized to `name = 'Worley'`, the case
`n = _worley2(u, v, 3, 16)` of the template switch. -/
noncomputable def applyHeightmapTemplateWorley (g : GeomParams) (h : Heights) : Heights :=
  applyHeightmapTemplateWith g (fun u v => worley2 u v 3 16) h

/-- One brush application: either the bounded-scan `applySculpt` or the
tile-corner `applySculpt`. -/
inductive BrushOp
  | bounded (hx hz radius step : ℝ) (mode : Mode)
  | corner (hx hz : ℝ) (radius : ℕ) (step : ℝ) (mode : Mode)

/-- Apply one brush operation to the height field. -/
noncomputable def applyBrush (config : Config) (g : GeomParams) :
    BrushOp → Heights → Heights
  | BrushOp.bounded hx hz radius step mode => applySculptBounded config g hx hz radius step mode
  | BrushOp.corner hx hz radius step mode => applySculptCorner config hx hz radius step mode

/-- Apply a finite sequence of brush operations, first element first. -/
noncomputable def applyBrushList (config : Config) (g : GeomParams)
    (ops : List BrushOp) (h : Heights) : Heights :=
  ops.foldl (fun acc op => applyBrush config g op acc) h

/-- Every stored height lies in the configured band `[MIN_H, MAX_H]`. -/
def inBand (config : Config) (h : Heights) : Prop :=
  ∀ v, config.MIN_H ≤ h v ∧ h v ≤ config.MAX_H

lemma clampR_mem {a b : ℝ} (x : ℝ) (hab : a ≤ b) :
    a ≤ clampR x a b ∧ clampR x a b ≤ b := by
  unfold clampR
  exact ⟨le_min hab (le_max_left a x), min_le_left b _⟩

lemma mean_mem {α : Type} {S : Finset α} (hS : S.Nonempty) {f : α → ℝ} {a b : ℝ}
    (hf : ∀ p ∈ S, a ≤ f p ∧ f p ≤ b) :
    a ≤ (∑ p ∈ S, f p) / S.card ∧ (∑ p ∈ S, f p) / S.card ≤ b := by
  have hc : (0 : ℝ) < S.card := by exact_mod_cast Finset.card_pos.mpr hS
  constructor
  · rw [le_div_iff₀ hc]
    calc a * S.card = ∑ _p ∈ S, a := by rw [Finset.sum_const, nsmul_eq_mul]; ring
      _ ≤ ∑ p ∈ S, f p := Finset.sum_le_sum (fun p hp => (hf p hp).1)
  · rw [div_le_iff₀ hc]
    calc (∑ p ∈ S, f p) ≤ ∑ _p ∈ S, b := Finset.sum_le_sum (fun p hp => (hf p hp).2)
      _ = b * S.card := by rw [Finset.sum_const, nsmul_eq_mul]; ring

lemma convex_step_mem {a b y m t : ℝ} (hy : a ≤ y ∧ y ≤ b) (hm : a ≤ m ∧ m ≤ b)
    (ht0 : 0 ≤ t) (ht1 : t ≤ 1) : a ≤ y + (m - y) * t ∧ y + (m - y) * t ≤ b := by
  constructor <;> nlinarith [hy.1, hy.2, hm.1, hm.2]

lemma applySculptBounded_inBand (config : Config) (g : GeomParams)
    (hx hz radius step : ℝ) (mode : Mode) (h : Heights) (hh : inBand config h) :
    inBand config (applySculptBounded config g hx hz radius step mode h) := by
  have hab : config.MIN_H ≤ config.MAX_H := (hh 0).1.trans (hh 0).2
  intro v
  cases mode with
  | smooth =>
    simp only [applySculptBounded]
    by_cases hp : sculptPicks config g hx hz radius = ∅
    · simp only [hp, if_pos rfl]
      exact hh v
    · rw [if_neg hp]
      by_cases hv : (((v % g.vpr : ℕ) : ℤ), ((v / g.vpr : ℕ) : ℤ)) ∈
          sculptPicks config g hx hz radius
      · rw [if_pos hv]
        refine convex_step_mem (hh v) ?_ (by norm_num) (by norm_num)
        exact mean_mem (Finset.nonempty_iff_ne_empty.mpr hp) (fun p _ => hh _)
      · rw [if_neg hv]; exact hh v
  | raise =>
    simp only [applySculptBounded]
    split
    · exact clampR_mem _ hab
    · exact hh v
  | lower =>
    simp only [applySculptBounded]
    split
    · exact clampR_mem _ hab
    · exact hh v

set_option maxHeartbeats 1000000 in
lemma applySculptCorner_inBand (config : Config)
    (hx hz : ℝ) (radius : ℕ) (step : ℝ) (mode : Mode) (h : Heights) (hh : inBand config h) :
    inBand config (applySculptCorner config hx hz radius step mode h) := by
  have hab : config.MIN_H ≤ config.MAX_H := (hh 0).1.trans (hh 0).2
  intro v
  cases mode with
  | smooth =>
    simp only [applySculptCorner]
    by_cases hv : (v : ℤ) ∈ cornerSmoothBox config (worldToTile hx hz config).1
        (worldToTile hx hz config).2 radius
    · rw [if_pos hv, if_neg (Finset.card_ne_zero_of_mem hv)]
      refine convex_step_mem (hh v) ?_ (by norm_num) (by norm_num)
      exact mean_mem ⟨_, hv⟩ (fun p _ => hh _)
    · rw [if_neg hv]; exact hh v
  | raise =>
    simp only [applySculptCorner]
    by_cases ht : cornerTouching config (worldToTile hx hz config).1
        (worldToTile hx hz config).2 radius v ≠ ∅
    · rw [if_pos ht]; exact clampR_mem _ hab
    · rw [if_neg ht]; exact hh v
  | lower =>
    simp only [applySculptCorner]
    by_cases ht : cornerTouching config (worldToTile hx hz config).1
        (worldToTile hx hz config).2 radius v ≠ ∅
    · rw [if_pos ht]; exact clampR_mem _ hab
    · rw [if_neg ht]; exact hh v

lemma applyBrush_inBand (config : Config) (g : GeomParams) (op : BrushOp)
    (h : Heights) (hh : inBand config h) :
    inBand config (applyBrush config g op h) := by
  cases op with
  | bounded hx hz radius step mode => exact applySculptBounded_inBand _ _ _ _ _ _ _ _ hh
  | corner hx hz radius step mode => exact applySculptCorner_inBand _ _ _ _ _ _ _ hh

/-- C2: for every finite sequence of brush applications (`applySculpt` with
mode raise, lower or smooth, any hit point, radius and step, in either the
bounded-scan or the tile-corner revision), if every stored height lies in
`[MIN_H, MAX_H]` initially then it still does after the whole sequence; in
particular the unclamped smooth branch, which moves each selected height
towards the arithmetic mean of the selected heights, preserves the band. -/
theorem applyBrushList_preserves_band (config : Config) (g : GeomParams)
    (ops : List BrushOp) (h : Heights) (hh : inBand config h) :
    inBand config (applyBrushList config g ops h) := by
  induction ops generalizing h with
  | nil => exact hh
  | cons op rest ih =>
    have : applyBrushList config g (op :: rest) h =
        applyBrushList config g rest (applyBrush config g op h) := rfl
    rw [this]
    exact ih _ (applyBrush_inBand config g op h hh)

/-- C2 witness: a concrete three-stroke sequence (raise, smooth, lower) on a
flat field stays within the band `[-200, 300]` of a 30×30-tile terrain. -/
theorem applyBrushList_preserves_band_witness :
    inBand ⟨30, 30, 32, -200, 300⟩
      (applyBrushList ⟨30, 30, 32, -200, 300⟩ ⟨960, 960, 120, 120⟩
        [BrushOp.bounded 10 20 2 (0.2) Mode.raise,
         BrushOp.corner 0 0 1 (0.5) Mode.smooth,
         BrushOp.bounded (-5) 3 2 (0.2) Mode.lower]
        (fun _ => 0)) :=
  applyBrushList_preserves_band ⟨30, 30, 32, -200, 300⟩ ⟨960, 960, 120, 120⟩
    [BrushOp.bounded 10 20 2 (0.2) Mode.raise,
     BrushOp.corner 0 0 1 (0.5) Mode.smooth,
     BrushOp.bounded (-5) 3 2 (0.2) Mode.lower]
    (fun _ => 0) (fun _ => by norm_num)

lemma worley2_shape (md : ℝ) : -2 ≤ 1.0 - clampR (md * 2) 0 1 * 2 + -1 ∧
    1.0 - clampR (md * 2) 0 1 * 2 + -1 ≤ 0 := by
  obtain ⟨h0, h1⟩ := @clampR_mem 0 1 (md * 2) (by norm_num)
  constructor <;> linarith

/-- The Worley sample ranges over `[-2, 0]`, not over `[-1, 1]`:
`1.0 - _clamp(md*2, 0, 1)*2 + -1` equals `-2 * _clamp(md*2, 0, 1)`. -/
lemma worley2_mem (u v c : ℝ) (pts : ℕ) :
    -2 ≤ worley2 u v c pts ∧ worley2 u v c pts ≤ 0 :=
  worley2_shape _

lemma applyHeightmapTemplateWith_mem (g : GeomParams) (f : ℝ → ℝ → ℝ) (h : Heights)
    (hf : ∀ u v, -2 ≤ f u v ∧ f u v ≤ 0) (v : ℕ) (hv : v < g.count) :
    -180 ≤ applyHeightmapTemplateWith g f h v ∧ applyHeightmapTemplateWith g f h v ≤ 20 := by
  unfold applyHeightmapTemplateWith
  rw [if_pos hv]
  obtain ⟨h1, h2⟩ := hf (((v % g.vpr : ℕ) : ℝ) / (g.widthSegments : ℝ))
    (((v / g.vpr : ℕ) : ℝ) / (g.heightSegments : ℝ))
  constructor <;> nlinarith

lemma randomizeTerrain_drift (count : ℕ) (rand : ℕ → ℝ) (h : Heights)
    (hr : ∀ k, 0 ≤ rand k ∧ rand k < 1) (v : ℕ) :
    |randomizeTerrain count rand h v - h v| ≤ 1.25 := by
  unfold randomizeTerrain
  split
  · rw [abs_le]
    obtain ⟨h0, h1⟩ := hr v
    constructor <;> nlinarith
  · simp
    norm_num

/-- C1 (amended): a brush application (either `applySculpt` revision, any
mode) preserves the band `[MIN_H, MAX_H]`; `randomizeTerrain` has no clamp
and only guarantees a per-vertex drift of at most `1.25`; and
`applyHeightmapTemplate('Worley')` writes every height into `[-180, 20]` —
because `_worley2` ranges over `[-2, 0]` instead of `[-1, 1]`, the template
can undershoot its own `minH = -80` by up to half its range. -/
theorem mutations_height_band (config : Config) (g : GeomParams)
    (op : BrushOp) (h : Heights) (count : ℕ) (rand : ℕ → ℝ)
    (hh : inBand config h) (hr : ∀ k, 0 ≤ rand k ∧ rand k < 1) :
    inBand config (applyBrush config g op h) ∧
    (∀ v, |randomizeTerrain count rand h v - h v| ≤ 1.25) ∧
    (∀ v, v < g.count →
      -180 ≤ applyHeightmapTemplateWorley g h v ∧
        applyHeightmapTemplateWorley g h v ≤ 20) := by
  refine ⟨applyBrush_inBand config g op h hh,
    randomizeTerrain_drift count rand h hr, fun v hv => ?_⟩
  exact applyHeightmapTemplateWith_mem g _ h (fun u vv => worley2_mem u vv 3 16) v hv

/-- C1 witness: the amended band theorem evaluated on a 30×30 terrain, a flat
field, a concrete raise stroke and the constant random stream `0.25`. -/
theorem mutations_height_band_witness :
    inBand ⟨30, 30, 32, -200, 300⟩
      (applyBrush ⟨30, 30, 32, -200, 300⟩ ⟨960, 960, 120, 120⟩
        (BrushOp.bounded 10 20 2 (0.2) Mode.raise) (fun _ => 0)) ∧
    (∀ v, |randomizeTerrain 14641 (fun _ => 0.25) (fun _ => 0) v -
      (fun _ => (0 : ℝ)) v| ≤ 1.25) ∧
    (∀ v, v < GeomParams.count ⟨960, 960, 120, 120⟩ →
      -180 ≤ applyHeightmapTemplateWorley ⟨960, 960, 120, 120⟩ (fun _ => 0) v ∧
        applyHeightmapTemplateWorley ⟨960, 960, 120, 120⟩ (fun _ => 0) v ≤ 20) :=
  mutations_height_band ⟨30, 30, 32, -200, 300⟩ ⟨960, 960, 120, 120⟩
    (BrushOp.bounded 10 20 2 (0.2) Mode.raise) (fun _ => 0) 14641 (fun _ => 0.25)
    (fun _ => by norm_num) (fun _ => by norm_num)

/-- C1 counterexample: with band `[-200, 300]`, every height at `300` (inside
the band) and `Math.random()` constantly drawing `0.9` (a legal draw),
`randomizeTerrain` moves vertex `0` to `301`, outside the band: the random
jitter mutation does not preserve `[minHeight, maxHeight]`. -/
theorem randomizeTerrain_escapes_band :
    inBand ⟨30, 30, 32, -200, 300⟩ (fun _ => 300) ∧
    (∀ (_k : ℕ), 0 ≤ (0.9 : ℝ) ∧ (0.9 : ℝ) < 1) ∧
    randomizeTerrain 14641 (fun _ => 0.9) (fun _ => 300) 0 = 301 ∧
    ¬ inBand ⟨30, 30, 32, -200, 300⟩
      (randomizeTerrain 14641 (fun _ => 0.9) (fun _ => 300)) := by
  have hval : randomizeTerrain 14641 (fun _ => 0.9) (fun _ => 300) 0 = 301 := by
    unfold randomizeTerrain
    norm_num
  refine ⟨fun _v => by norm_num, fun _k => by norm_num, hval, fun hcontra => ?_⟩
  have h2 := (hcontra 0).2
  rw [hval] at h2
  norm_num at h2

/-- `sampleHeightLocal(x, z)` from the fine-grid `trees.js` revision
(`terrain.js` file, lines 418–452): bilinear interpolation on the actual
geometry grid, with `Math.floor` cell indices clamped into the grid. -/
noncomputable def sampleHeightLocal (g : GeomParams) (h : Heights) (x z : ℝ) : ℝ :=
  let u := (x + g.width / 2) / g.width
  let v := (z + g.height / 2) / g.height
  let gx := u * g.widthSegments
  let gz := v * g.heightSegments
  let ix : ℤ := ⌊gx⌋
  let iz : ℤ := ⌊gz⌋
  let fx : ℝ := gx - (ix : ℝ)
  let fz : ℝ := gz - (iz : ℝ)
  let Y : ℤ → ℤ → ℝ := fun jj ii => h ((jj * (g.vpr : ℤ) + ii).toNat)
  let x0 := clampI ix 0 g.widthSegments
  let z0 := clampI iz 0 g.heightSegments
  let x1 := clampI (ix + 1) 0 g.widthSegments
  let z1 := clampI (iz + 1) 0 g.heightSegments
  let y00 := Y z0 x0
  let y10 := Y z0 x1
  let y01 := Y z1 x0
  let y11 := Y z1 x1
  let y0 := y00 * (1 - fx) + y10 * fx
  let y1 := y01 * (1 - fx) + y11 * fx
  y0 * (1 - fz) + y1 * fz

/-- `_sampleHeightLocal(x, z)` from `character.js` (lines 73–105): the same
bilinear interpolation, with the fractional parts additionally clamped into
`[0, 1]` and the upper cell indices formed as `min(segments, lower + 1)`. -/
noncomputable def sampleHeightLocalChar (g : GeomParams) (h : Heights) (x z : ℝ) : ℝ :=
  let u := (x + g.width / 2) / g.width
  let v := (z + g.height / 2) / g.height
  let gx := u * g.widthSegments
  let gz := v * g.heightSegments
  let ix : ℤ := ⌊gx⌋
  let iz : ℤ := ⌊gz⌋
  let fx : ℝ := clampR (gx - (ix : ℝ)) 0 1
  let fz : ℝ := clampR (gz - (iz : ℝ)) 0 1
  let Y : ℤ → ℤ → ℝ := fun jj ii => h ((jj * (g.vpr : ℤ) + ii).toNat)
  let x0 := clampI ix 0 g.widthSegments
  let z0 := clampI iz 0 g.heightSegments
  let x1 := min (g.widthSegments : ℤ) (x0 + 1)
  let z1 := min (g.heightSegments : ℤ) (z0 + 1)
  let y00 := Y z0 x0
  let y10 := Y z0 x1
  let y01 := Y z1 x0
  let y11 := Y z1 x1
  let y0 := y00 * (1 - fx) + y10 * fx
  let y1 := y01 * (1 - fx) + y11 * fx
  y0 * (1 - fz) + y1 * fz

lemma vertex_u_eq (g : GeomParams) (col : ℕ) (hw : g.width ≠ 0)
    (hws : (g.widthSegments : ℝ) ≠ 0) :
    (vertexX g col + g.width / 2) / g.width * g.widthSegments = (col : ℝ) := by
  unfold vertexX
  field_simp
  ring

lemma vertex_v_eq (g : GeomParams) (row : ℕ) (hh : g.height ≠ 0)
    (hhs : (g.heightSegments : ℝ) ≠ 0) :
    (vertexZ g row + g.height / 2) / g.height * g.heightSegments = (row : ℝ) := by
  unfold vertexZ
  field_simp
  ring

lemma index_toNat_eq (g : GeomParams) (col row : ℕ) :
    (((row : ℤ) * (g.vpr : ℤ) + (col : ℤ)).toNat) = vIndex g col row := by
  unfold vIndex GeomParams.vpr
  omega

lemma sampleHeightLocal_at_vertex (g : GeomParams) (h : Heights) (col row : ℕ)
    (hw : 0 < g.width) (hht : 0 < g.height)
    (hws : 1 ≤ g.widthSegments) (hhs : 1 ≤ g.heightSegments)
    (hcol : col ≤ g.widthSegments) (hrow : row ≤ g.heightSegments) :
    sampleHeightLocal g h (vertexX g col) (vertexZ g row) = h (vIndex g col row) := by
  have hgx := vertex_u_eq g col (ne_of_gt hw) (Nat.cast_ne_zero.mpr (by omega))
  have hgz := vertex_v_eq g row (ne_of_gt hht) (Nat.cast_ne_zero.mpr (by omega))
  have hx0 : clampI (col : ℤ) 0 g.widthSegments = (col : ℤ) := by unfold clampI; omega
  have hz0 : clampI (row : ℤ) 0 g.heightSegments = (row : ℤ) := by unfold clampI; omega
  simp only [sampleHeightLocal]
  rw [hgx, hgz, Int.floor_natCast, Int.floor_natCast, hx0, hz0]
  push_cast
  simp only [sub_self]
  rw [index_toNat_eq]
  ring

lemma sampleHeightLocalChar_at_vertex (g : GeomParams) (h : Heights) (col row : ℕ)
    (hw : 0 < g.width) (hht : 0 < g.height)
    (hws : 1 ≤ g.widthSegments) (hhs : 1 ≤ g.heightSegments)
    (hcol : col ≤ g.widthSegments) (hrow : row ≤ g.heightSegments) :
    sampleHeightLocalChar g h (vertexX g col) (vertexZ g row) = h (vIndex g col row) := by
  have hgx := vertex_u_eq g col (ne_of_gt hw) (Nat.cast_ne_zero.mpr (by omega))
  have hgz := vertex_v_eq g row (ne_of_gt hht) (Nat.cast_ne_zero.mpr (by omega))
  have hx0 : clampI (col : ℤ) 0 g.widthSegments = (col : ℤ) := by unfold clampI; omega
  have hz0 : clampI (row : ℤ) 0 g.heightSegments = (row : ℤ) := by unfold clampI; omega
  have hcl : clampR 0 0 1 = 0 := by unfold clampR; norm_num
  simp only [sampleHeightLocalChar]
  rw [hgx, hgz, Int.floor_natCast, Int.floor_natCast, hx0, hz0]
  push_cast
  simp only [sub_self, hcl]
  rw [index_toNat_eq]
  ring

/-- C4: for every fine-grid vertex `(col, row)`, evaluating the bilinear
height sample at exactly that vertex's local coordinates
(`x = -width/2 + col*width/widthSegments`,
`z = -height/2 + row*height/heightSegments`) returns exactly the stored
height of that vertex — for both the `trees.js` sampler and the
`character.js` sampler. -/
theorem sampleBilinear_exact_at_vertices (g : GeomParams) (h : Heights) (col row : ℕ)
    (hw : 0 < g.width) (hht : 0 < g.height)
    (hws : 1 ≤ g.widthSegments) (hhs : 1 ≤ g.heightSegments)
    (hcol : col ≤ g.widthSegments) (hrow : row ≤ g.heightSegments) :
    sampleHeightLocal g h (vertexX g col) (vertexZ g row) = h (vIndex g col row) ∧
    sampleHeightLocalChar g h (vertexX g col) (vertexZ g row) = h (vIndex g col row) :=
  ⟨sampleHeightLocal_at_vertex g h col row hw hht hws hhs hcol hrow,
   sampleHeightLocalChar_at_vertex g h col row hw hht hws hhs hcol hrow⟩

/-- C4 witness: on a 120×120-segment grid with `h v = v`, both samplers
return the stored height of vertex `(7, 5)`. -/
theorem sampleBilinear_exact_at_vertices_witness :
    sampleHeightLocal ⟨960, 960, 120, 120⟩ (fun v => (v : ℝ))
        (vertexX ⟨960, 960, 120, 120⟩ 7) (vertexZ ⟨960, 960, 120, 120⟩ 5) =
      (fun v => (v : ℝ)) (vIndex ⟨960, 960, 120, 120⟩ 7 5) ∧
    sampleHeightLocalChar ⟨960, 960, 120, 120⟩ (fun v => (v : ℝ))
        (vertexX ⟨960, 960, 120, 120⟩ 7) (vertexZ ⟨960, 960, 120, 120⟩ 5) =
      (fun v => (v : ℝ)) (vIndex ⟨960, 960, 120, 120⟩ 7 5) :=
  sampleBilinear_exact_at_vertices ⟨960, 960, 120, 120⟩ (fun v => (v : ℝ)) 7 5
    (by norm_num) (by norm_num) (by norm_num) (by norm_num) (by norm_num) (by norm_num)

lemma vIndex_mod (g : GeomParams) (col row : ℕ) (hcol : col ≤ g.widthSegments) :
    vIndex g col row % g.vpr = col := by
  unfold vIndex
  rw [Nat.add_comm, Nat.add_mul_mod_self_right]
  exact Nat.mod_eq_of_lt (by unfold GeomParams.vpr; omega)

lemma vIndex_div (g : GeomParams) (col row : ℕ) (hcol : col ≤ g.widthSegments) :
    vIndex g col row / g.vpr = row := by
  unfold vIndex
  rw [Nat.add_comm, Nat.add_mul_div_right _ _ (by unfold GeomParams.vpr; omega),
    Nat.div_eq_of_lt (by unfold GeomParams.vpr; omega), Nat.zero_add]

lemma vIndex_lt_count (g : GeomParams) (col row : ℕ)
    (hcol : col ≤ g.widthSegments) (hrow : row ≤ g.heightSegments) :
    vIndex g col row < g.count := by
  unfold vIndex GeomParams.vpr GeomParams.count
  calc row * (g.widthSegments + 1) + col
      ≤ g.heightSegments * (g.widthSegments + 1) + g.widthSegments :=
        add_le_add (Nat.mul_le_mul_right _ hrow) hcol
    _ < (g.widthSegments + 1) * (g.heightSegments + 1) := by nlinarith

lemma hitVertX_at_vertex (g : GeomParams) (hc : ℕ) (hw : g.width ≠ 0)
    (hws : (g.widthSegments : ℝ) ≠ 0) : hitVertX g (vertexX g hc) = hc := by
  unfold hitVertX
  rw [vertex_u_eq g hc hw hws]
  exact round_natCast hc

lemma hitVertZ_at_vertex (g : GeomParams) (hr : ℕ) (hht : g.height ≠ 0)
    (hhs : (g.heightSegments : ℝ) ≠ 0) : hitVertZ g (vertexZ g hr) = hr := by
  unfold hitVertZ
  rw [vertex_v_eq g hr hht hhs]
  exact round_natCast hr

lemma sculptDist_self (g : GeomParams) (hc hr : ℕ) (hw : g.width ≠ 0)
    (hws : (g.widthSegments : ℝ) ≠ 0) (hht : g.height ≠ 0)
    (hhs : (g.heightSegments : ℝ) ≠ 0) :
    sculptDist g (vertexX g hc) (vertexZ g hr) hc hr = 0 := by
  unfold sculptDist
  rw [hitVertX_at_vertex g hc hw hws, hitVertZ_at_vertex g hr hht hhs]
  push_cast
  simp

lemma radiusVerts_pos (config : Config) (g : GeomParams) (radius : ℝ)
    (hR : 0 < worldBrushRadius config radius) (hw : 0 < g.width)
    (hws : 1 ≤ g.widthSegments) : 0 < radiusVerts config g radius := by
  unfold radiusVerts
  rw [Int.ceil_pos]
  apply div_pos hR
  unfold vertexCell
  exact div_pos hw (by exact_mod_cast Nat.pos_of_ne_zero (by omega))

lemma center_in_sculptBox (config : Config) (g : GeomParams) (hc hr : ℕ)
    (radius : ℝ) (hw : 0 < g.width) (hht : 0 < g.height)
    (hws : 1 ≤ g.widthSegments) (hhs : 1 ≤ g.heightSegments)
    (hcol : hc ≤ g.widthSegments) (hrow : hr ≤ g.heightSegments)
    (hR : 0 < worldBrushRadius config radius) :
    ((hc : ℤ), (hr : ℤ)) ∈ sculptBox config g (vertexX g hc) (vertexZ g hr) radius := by
  have hwne : g.width ≠ 0 := ne_of_gt hw
  have hhne : g.height ≠ 0 := ne_of_gt hht
  have hwsne : (g.widthSegments : ℝ) ≠ 0 := Nat.cast_ne_zero.mpr (by omega)
  have hhsne : (g.heightSegments : ℝ) ≠ 0 := Nat.cast_ne_zero.mpr (by omega)
  have hrv := radiusVerts_pos config g radius hR hw hws
  unfold sculptBox
  rw [hitVertX_at_vertex g hc hwne hwsne, hitVertZ_at_vertex g hr hhne hhsne]
  simp only [Finset.mem_product, Finset.mem_Icc]
  omega

lemma applySculptBounded_center_raise (config : Config) (g : GeomParams)
    (radius step : ℝ) (h : Heights) (hc hr : ℕ)
    (hw : 0 < g.width) (hht : 0 < g.height)
    (hws : 1 ≤ g.widthSegments) (hhs : 1 ≤ g.heightSegments)
    (hcol : hc ≤ g.widthSegments) (hrow : hr ≤ g.heightSegments)
    (hR : 0 < worldBrushRadius config radius) :
    applySculptBounded config g (vertexX g hc) (vertexZ g hr) radius step Mode.raise h
        (vIndex g hc hr) =
      clampR (h (vIndex g hc hr) + step) config.MIN_H config.MAX_H := by
  have hwne : g.width ≠ 0 := ne_of_gt hw
  have hhne : g.height ≠ 0 := ne_of_gt hht
  have hwsne : (g.widthSegments : ℝ) ≠ 0 := Nat.cast_ne_zero.mpr (by omega)
  have hhsne : (g.heightSegments : ℝ) ≠ 0 := Nat.cast_ne_zero.mpr (by omega)
  have hdist := sculptDist_self g hc hr hwne hwsne hhne hhsne
  simp only [applySculptBounded]
  rw [vIndex_mod g hc hr hcol, vIndex_div g hc hr hcol,
    if_pos ⟨center_in_sculptBox config g hc hr radius hw hht hws hhs hcol hrow hR,
      by rw [hdist]; exact hR⟩]
  rw [hdist, zero_div, zero_mul, Real.cos_zero]
  rw [if_neg (show ¬ (Mode.raise = Mode.lower) by simp)]
  norm_num

lemma applySculptFull_center_raise (config : Config) (g : GeomParams)
    (radius step : ℝ) (h : Heights) (hc hr : ℕ)
    (hcol : hc ≤ g.widthSegments) (hrow : hr ≤ g.heightSegments)
    (hR : 0 < worldBrushRadius config radius) :
    applySculptFull config g (vertexX g hc) (vertexZ g hr) radius step Mode.raise h
        (vIndex g hc hr) =
      clampR (h (vIndex g hc hr) + step) config.MIN_H config.MAX_H := by
  simp only [applySculptFull]
  rw [vIndex_mod g hc hr hcol, vIndex_div g hc hr hcol]
  have hzero : Real.sqrt ((vertexX g hc - vertexX g hc) ^ 2 +
      (vertexZ g hr - vertexZ g hr) ^ 2) = 0 := by simp
  rw [if_pos ⟨vIndex_lt_count g hc hr hcol hrow, by rw [hzero]; exact hR⟩]
  rw [hzero, zero_div, zero_mul, Real.cos_zero]
  rw [if_neg (show ¬ (Mode.raise = Mode.smooth) by simp),
    if_neg (show ¬ (Mode.raise = Mode.lower) by simp)]
  norm_num

/-- C3 (amended): (a) the full-scan brush leaves every vertex whose XZ
distance from the exact hit point exceeds the world brush radius `R`
unchanged; (b) the bounded-scan brush measures distance from the fine vertex
nearest the hit point, and leaves every vertex at snapped distance `≥ R`
unchanged; (c) when the hit point lies exactly on a fine-grid vertex,
`R > 0`, `step > 0`, the mode is raise and the center height is strictly
below `MAX_H` (and at least `MIN_H`), both revisions strictly raise the
nearest (= hit) vertex. -/
theorem brush_locality (config : Config) (g : GeomParams) :
    (∀ (hx hz radius step : ℝ) (mode : Mode) (h : Heights) (v : ℕ),
      worldBrushRadius config radius <
        Real.sqrt ((vertexX g (v % g.vpr) - hx) ^ 2 + (vertexZ g (v / g.vpr) - hz) ^ 2) →
      applySculptFull config g hx hz radius step mode h v = h v) ∧
    (∀ (hx hz radius step : ℝ) (mode : Mode) (h : Heights) (v : ℕ),
      worldBrushRadius config radius ≤
        sculptDist g hx hz ((v % g.vpr : ℕ) : ℤ) ((v / g.vpr : ℕ) : ℤ) →
      applySculptBounded config g hx hz radius step mode h v = h v) ∧
    (∀ (radius step : ℝ) (h : Heights) (hc hr : ℕ),
      0 < g.width → 0 < g.height → 1 ≤ g.widthSegments → 1 ≤ g.heightSegments →
      hc ≤ g.widthSegments → hr ≤ g.heightSegments →
      0 < worldBrushRadius config radius → 0 < step →
      config.MIN_H ≤ h (vIndex g hc hr) → h (vIndex g hc hr) < config.MAX_H →
      h (vIndex g hc hr) <
        applySculptBounded config g (vertexX g hc) (vertexZ g hr) radius step Mode.raise h
          (vIndex g hc hr) ∧
      h (vIndex g hc hr) <
        applySculptFull config g (vertexX g hc) (vertexZ g hr) radius step Mode.raise h
          (vIndex g hc hr)) := by
  refine ⟨?_, ?_, ?_⟩
  · intro hx hz radius step mode h v hfar
    simp only [applySculptFull]
    rw [if_neg]
    rintro ⟨-, hlt⟩
    exact absurd hlt (not_lt.mpr (le_of_lt hfar))
  · intro hx hz radius step mode h v hge
    cases mode with
    | smooth =>
      simp only [applySculptBounded]
      by_cases hp : sculptPicks config g hx hz radius = ∅
      · rw [if_pos hp]
      · rw [if_neg hp, if_neg]
        intro hmem
        exact absurd (Finset.mem_filter.mp hmem).2 (not_lt.mpr hge)
    | raise =>
      simp only [applySculptBounded]
      rw [if_neg]
      rintro ⟨-, hlt⟩
      exact absurd hlt (not_lt.mpr hge)
    | lower =>
      simp only [applySculptBounded]
      rw [if_neg]
      rintro ⟨-, hlt⟩
      exact absurd hlt (not_lt.mpr hge)
  · intro radius step h hc hr hw hht hws hhs hcol hrow hR hstep hlo hhi
    have hclamp : h (vIndex g hc hr) <
        clampR (h (vIndex g hc hr) + step) config.MIN_H config.MAX_H := by
      unfold clampR
      rw [max_eq_right (by linarith)]
      exact lt_min hhi (by linarith)
    constructor
    · rw [applySculptBounded_center_raise config g radius step h hc hr hw hht hws hhs
        hcol hrow hR]
      exact hclamp
    · rw [applySculptFull_center_raise config g radius step h hc hr hcol hrow hR]
      exact hclamp

/-- C3 counterexample: (i) with every height at the clamp bound
`MAX_H = 300` and a raise stroke of `step = 1 ≠ 0` hit exactly at fine
vertex `(0,0)`, the nearest vertex keeps its height in both brush revisions
(the clamp absorbs the step); (ii) with the hit at local `(-0.05, -1)` and
world brush radius `0.9`, vertex 0 lies at distance `0.95 > 0.9` from the
hit point, yet the bounded-scan brush raises it from `0` to `1`, because it
measures distance from the snapped vertex rather than from the hit point. -/
theorem brush_locality_counterexample :
    (applySculptFull ⟨30, 30, 1, -200, 300⟩ ⟨2, 2, 1, 1⟩ (vertexX ⟨2, 2, 1, 1⟩ 0)
        (vertexZ ⟨2, 2, 1, 1⟩ 0) 5 1 Mode.raise (fun _ => 300)
        (vIndex ⟨2, 2, 1, 1⟩ 0 0) = 300 ∧
      applySculptBounded ⟨30, 30, 1, -200, 300⟩ ⟨2, 2, 1, 1⟩ (vertexX ⟨2, 2, 1, 1⟩ 0)
        (vertexZ ⟨2, 2, 1, 1⟩ 0) 5 1 Mode.raise (fun _ => 300)
        (vIndex ⟨2, 2, 1, 1⟩ 0 0) = 300) ∧
    (worldBrushRadius ⟨30, 30, 1, -200, 300⟩ 0.9 <
        Real.sqrt ((vertexX ⟨2, 2, 1, 1⟩ 0 - (-0.05)) ^ 2 +
          (vertexZ ⟨2, 2, 1, 1⟩ 0 - (-1)) ^ 2) ∧
      applySculptBounded ⟨30, 30, 1, -200, 300⟩ ⟨2, 2, 1, 1⟩ (-0.05) (-1) 0.9 1 Mode.raise
        (fun _ => 0) 0 = 1) := by
  have h1 : hitVertX ⟨2, 2, 1, 1⟩ (-0.05) = 0 := by
    unfold hitVertX
    norm_num [round_eq]
  have h2 : hitVertZ ⟨2, 2, 1, 1⟩ (-1) = 0 := by
    unfold hitVertZ
    norm_num [round_eq]
  have h3 : radiusVerts ⟨30, 30, 1, -200, 300⟩ ⟨2, 2, 1, 1⟩ 0.9 = 1 := by
    unfold radiusVerts worldBrushRadius vertexCell
    norm_num
    rw [Int.ceil_eq_iff]
    norm_num
  have h4 : sculptDist ⟨2, 2, 1, 1⟩ (-0.05) (-1) 0 0 = 0 := by
    unfold sculptDist
    rw [h1, h2]
    norm_num [Real.sqrt_zero]
  have h5 : ((0 : ℤ), (0 : ℤ)) ∈ sculptBox ⟨30, 30, 1, -200, 300⟩ ⟨2, 2, 1, 1⟩
      (-0.05) (-1) 0.9 := by
    unfold sculptBox
    rw [h1, h2, h3]
    simp only [Finset.mem_product, Finset.mem_Icc]
    norm_num
  refine ⟨⟨?_, ?_⟩, ?_, ?_⟩
  · rw [applySculptFull_center_raise ⟨30, 30, 1, -200, 300⟩ ⟨2, 2, 1, 1⟩ 5 1 (fun _ => 300)
      0 0 (by norm_num) (by norm_num) (by norm_num [worldBrushRadius])]
    norm_num [clampR]
  · rw [applySculptBounded_center_raise ⟨30, 30, 1, -200, 300⟩ ⟨2, 2, 1, 1⟩ 5 1 (fun _ => 300)
      0 0 (by norm_num) (by norm_num) (by norm_num) (by norm_num) (by norm_num) (by norm_num)
      (by norm_num [worldBrushRadius])]
    norm_num [clampR]
  · rw [show worldBrushRadius ⟨30, 30, 1, -200, 300⟩ 0.9 = 0.9 by
      unfold worldBrushRadius; norm_num]
    rw [show (vertexX ⟨2, 2, 1, 1⟩ 0 - (-0.05)) ^ 2 +
        (vertexZ ⟨2, 2, 1, 1⟩ 0 - (-1)) ^ 2 = 0.9025 by
      unfold vertexX vertexZ; norm_num]
    rw [Real.lt_sqrt (by norm_num)]
    norm_num
  · have hv : (0 : ℕ) % GeomParams.vpr ⟨2, 2, 1, 1⟩ = 0 := rfl
    have hdv : (0 : ℕ) / GeomParams.vpr ⟨2, 2, 1, 1⟩ = 0 := rfl
    simp only [applySculptBounded, hv, hdv, Nat.cast_zero]
    rw [if_pos ⟨h5, by rw [h4]; unfold worldBrushRadius; norm_num⟩]
    rw [h4, zero_div, zero_mul, Real.cos_zero]
    rw [if_neg (show ¬ (Mode.raise = Mode.lower) by simp)]
    norm_num [clampR]

/-- C3 witness: the amended locality theorem's center-change clause applied
at a concrete flat field below the clamp bound: a raise stroke of step `1`
at vertex `(0,0)` strictly raises that vertex in both revisions. -/
theorem brush_locality_witness :
    (fun _ => (0 : ℝ)) (vIndex ⟨2, 2, 1, 1⟩ 0 0) <
      applySculptBounded ⟨30, 30, 1, -200, 300⟩ ⟨2, 2, 1, 1⟩ (vertexX ⟨2, 2, 1, 1⟩ 0)
        (vertexZ ⟨2, 2, 1, 1⟩ 0) 5 1 Mode.raise (fun _ => 0) (vIndex ⟨2, 2, 1, 1⟩ 0 0) ∧
    (fun _ => (0 : ℝ)) (vIndex ⟨2, 2, 1, 1⟩ 0 0) <
      applySculptFull ⟨30, 30, 1, -200, 300⟩ ⟨2, 2, 1, 1⟩ (vertexX ⟨2, 2, 1, 1⟩ 0)
        (vertexZ ⟨2, 2, 1, 1⟩ 0) 5 1 Mode.raise (fun _ => 0) (vIndex ⟨2, 2, 1, 1⟩ 0 0) :=
  (brush_locality ⟨30, 30, 1, -200, 300⟩ ⟨2, 2, 1, 1⟩).2.2 5 1 (fun _ => 0) 0 0
    (by norm_num) (by norm_num) (by norm_num) (by norm_num) (by norm_num) (by norm_num)
    (by norm_num [worldBrushRadius]) (by norm_num) (by norm_num) (by norm_num)

/-- Vertex index written for a picked `(x, z)` pair of the smooth branch. -/
def pickIndex (g : GeomParams) (p : ℤ × ℤ) : ℕ := p.2.toNat * g.vpr + p.1.toNat

/-- Arithmetic mean of the heights over a set of picked vertices (the `avg`
of the smooth branch). -/
noncomputable def picksMean (g : GeomParams) (S : Finset (ℤ × ℤ)) (h : Heights) : ℝ :=
  (∑ p ∈ S, h (pickIndex g p)) / S.card

/-- Variance of the heights over a set of picked vertices. -/
noncomputable def picksVar (g : GeomParams) (S : Finset (ℤ × ℤ)) (h : Heights) : ℝ :=
  (∑ p ∈ S, (h (pickIndex g p) - picksMean g S h) ^ 2) / S.card

lemma picksVar_nonneg (g : GeomParams) (S : Finset (ℤ × ℤ)) (h : Heights) :
    0 ≤ picksVar g S h := by
  unfold picksVar
  apply div_nonneg _ (by positivity)
  exact Finset.sum_nonneg (fun p _ => sq_nonneg _)

lemma applySculptBounded_smooth_eq (config : Config) (g : GeomParams)
    (hx hz radius step : ℝ) (h : Heights)
    (hp : sculptPicks config g hx hz radius ≠ ∅) :
    applySculptBounded config g hx hz radius step Mode.smooth h = fun vi =>
      if (((vi % g.vpr : ℕ) : ℤ), ((vi / g.vpr : ℕ) : ℤ)) ∈ sculptPicks config g hx hz radius
      then h vi + (picksMean g (sculptPicks config g hx hz radius) h - h vi) * 0.1
      else h vi := by
  simp only [applySculptBounded, if_neg hp]
  rfl

lemma pick_decode (config : Config) (g : GeomParams) (hx hz radius : ℝ) (p : ℤ × ℤ)
    (hp : p ∈ sculptPicks config g hx hz radius) :
    (((pickIndex g p % g.vpr : ℕ) : ℤ), ((pickIndex g p / g.vpr : ℕ) : ℤ)) = p := by
  obtain ⟨hbox, -⟩ := Finset.mem_filter.mp hp
  obtain ⟨hx1, hz1⟩ := Finset.mem_product.mp hbox
  rw [Finset.mem_Icc] at hx1 hz1
  have h0x : 0 ≤ p.1 := le_trans (le_max_left _ _) hx1.1
  have h0z : 0 ≤ p.2 := le_trans (le_max_left _ _) hz1.1
  have hxw : p.1 ≤ (g.widthSegments : ℤ) := le_trans hx1.2 (min_le_left _ _)
  have hcol : p.1.toNat ≤ g.widthSegments := by omega
  have e1 : pickIndex g p = vIndex g p.1.toNat p.2.toNat := by
    unfold pickIndex vIndex
    ring
  rw [e1, vIndex_mod g _ _ hcol, vIndex_div g _ _ hcol]
  rw [Prod.ext_iff]
  exact ⟨Int.toNat_of_nonneg h0x, Int.toNat_of_nonneg h0z⟩

lemma smooth_value_at_pick (config : Config) (g : GeomParams)
    (hx hz radius step : ℝ) (h : Heights) (p : ℤ × ℤ)
    (hp : p ∈ sculptPicks config g hx hz radius) :
    applySculptBounded config g hx hz radius step Mode.smooth h (pickIndex g p) =
      h (pickIndex g p) +
        (picksMean g (sculptPicks config g hx hz radius) h - h (pickIndex g p)) * 0.1 := by
  have hne : sculptPicks config g hx hz radius ≠ ∅ :=
    Finset.nonempty_iff_ne_empty.mp ⟨p, hp⟩
  rw [applySculptBounded_smooth_eq config g hx hz radius step h hne]
  simp only []
  rw [pick_decode config g hx hz radius p hp, if_pos hp]

lemma smooth_mean_invariant (config : Config) (g : GeomParams)
    (hx hz radius step : ℝ) (h : Heights)
    (hne : (sculptPicks config g hx hz radius).Nonempty) :
    picksMean g (sculptPicks config g hx hz radius)
        (applySculptBounded config g hx hz radius step Mode.smooth h) =
      picksMean g (sculptPicks config g hx hz radius) h := by
  have hcard : (0 : ℝ) < (sculptPicks config g hx hz radius).card := by
    exact_mod_cast Finset.card_pos.mpr hne
  unfold picksMean
  rw [Finset.sum_congr rfl
    (fun p hp => smooth_value_at_pick config g hx hz radius step h p hp)]
  have expand : ∀ p : ℤ × ℤ, h (pickIndex g p) +
      (picksMean g (sculptPicks config g hx hz radius) h - h (pickIndex g p)) * 0.1 =
      0.9 * h (pickIndex g p) +
        0.1 * picksMean g (sculptPicks config g hx hz radius) h := fun p => by ring
  simp_rw [expand]
  rw [Finset.sum_add_distrib, ← Finset.mul_sum, Finset.sum_const, nsmul_eq_mul]
  unfold picksMean
  field_simp
  ring

lemma smooth_var_scale (config : Config) (g : GeomParams)
    (hx hz radius step : ℝ) (h : Heights)
    (hne : (sculptPicks config g hx hz radius).Nonempty) :
    picksVar g (sculptPicks config g hx hz radius)
        (applySculptBounded config g hx hz radius step Mode.smooth h) =
      0.81 * picksVar g (sculptPicks config g hx hz radius) h := by
  unfold picksVar
  rw [smooth_mean_invariant config g hx hz radius step h hne]
  rw [Finset.sum_congr rfl (fun p hp => by
    rw [smooth_value_at_pick config g hx hz radius step h p hp])]
  have expand : ∀ p : ℤ × ℤ, (h (pickIndex g p) +
      (picksMean g (sculptPicks config g hx hz radius) h - h (pickIndex g p)) * 0.1 -
        picksMean g (sculptPicks config g hx hz radius) h) ^ 2 =
      0.81 * (h (pickIndex g p) -
        picksMean g (sculptPicks config g hx hz radius) h) ^ 2 := fun p => by ring
  simp_rw [expand]
  rw [← Finset.mul_sum, mul_div_assoc]

/-- Iterated application of the bounded-scan smooth brush at a fixed hit
point and radius. -/
noncomputable def smoothIter (config : Config) (g : GeomParams)
    (hx hz radius step : ℝ) (h : Heights) (k : ℕ) : Heights :=
  (fun hh => applySculptBounded config g hx hz radius step Mode.smooth hh)^[k] h

lemma smoothIter_var (config : Config) (g : GeomParams)
    (hx hz radius step : ℝ) (h : Heights)
    (hne : (sculptPicks config g hx hz radius).Nonempty) (k : ℕ) :
    picksVar g (sculptPicks config g hx hz radius)
        (smoothIter config g hx hz radius step h k) =
      0.81 ^ k * picksVar g (sculptPicks config g hx hz radius) h := by
  induction k with
  | zero => simp [smoothIter]
  | succ n ih =>
    unfold smoothIter
    rw [Function.iterate_succ_apply']
    rw [smooth_var_scale config g hx hz radius step _ hne]
    unfold smoothIter at ih
    rw [ih]
    ring

/-- C6: with a fixed center and radius, one application of the bounded-scan
smooth brush multiplies the variance of the heights within the brush radius
(the `picks`) by `0.81`, hence strictly decreases it whenever it is
positive; `k` applications scale it by `0.81^k`, which stays nonnegative
and tends to `0`. -/
theorem smooth_variance_convergence (config : Config) (g : GeomParams)
    (hx hz radius step : ℝ) (h : Heights)
    (hne : (sculptPicks config g hx hz radius).Nonempty)
    (hvar : 0 < picksVar g (sculptPicks config g hx hz radius) h) :
    picksVar g (sculptPicks config g hx hz radius)
        (applySculptBounded config g hx hz radius step Mode.smooth h) =
      0.81 * picksVar g (sculptPicks config g hx hz radius) h ∧
    picksVar g (sculptPicks config g hx hz radius)
        (applySculptBounded config g hx hz radius step Mode.smooth h) <
      picksVar g (sculptPicks config g hx hz radius) h ∧
    (∀ k, picksVar g (sculptPicks config g hx hz radius)
        (smoothIter config g hx hz radius step h k) =
      0.81 ^ k * picksVar g (sculptPicks config g hx hz radius) h) ∧
    (∀ k, 0 ≤ picksVar g (sculptPicks config g hx hz radius)
        (smoothIter config g hx hz radius step h k)) ∧
    Filter.Tendsto (fun k => picksVar g (sculptPicks config g hx hz radius)
        (smoothIter config g hx hz radius step h k)) Filter.atTop (nhds 0) := by
  refine ⟨smooth_var_scale config g hx hz radius step h hne, ?_,
    smoothIter_var config g hx hz radius step h hne, fun k => picksVar_nonneg _ _ _, ?_⟩
  · rw [smooth_var_scale config g hx hz radius step h hne]
    nlinarith
  · have base : Filter.Tendsto
        (fun k : ℕ => (0.81 : ℝ) ^ k * picksVar g (sculptPicks config g hx hz radius) h)
        Filter.atTop (nhds 0) := by
      have := (tendsto_pow_atTop_nhds_zero_of_lt_one
        (show (0 : ℝ) ≤ 0.81 by norm_num) (by norm_num)).mul_const
        (picksVar g (sculptPicks config g hx hz radius) h)
      simpa using this
    exact base.congr
      (fun k => (smoothIter_var config g hx hz radius step h hne k).symm)

lemma c6_rv : radiusVerts ⟨30, 30, 10, -200, 300⟩ ⟨2, 2, 1, 1⟩ 1 = 5 := by
  unfold radiusVerts worldBrushRadius vertexCell
  norm_num

lemma c6_box : sculptBox ⟨30, 30, 10, -200, 300⟩ ⟨2, 2, 1, 1⟩ (vertexX ⟨2, 2, 1, 1⟩ 0)
    (vertexZ ⟨2, 2, 1, 1⟩ 0) 1 = Finset.Icc (0 : ℤ) 1 ×ˢ Finset.Icc (0 : ℤ) 1 := by
  unfold sculptBox
  rw [hitVertX_at_vertex ⟨2, 2, 1, 1⟩ 0 (by norm_num) (by norm_num),
    hitVertZ_at_vertex ⟨2, 2, 1, 1⟩ 0 (by norm_num) (by norm_num), c6_rv]
  norm_num

lemma c6_picks : sculptPicks ⟨30, 30, 10, -200, 300⟩ ⟨2, 2, 1, 1⟩ (vertexX ⟨2, 2, 1, 1⟩ 0)
    (vertexZ ⟨2, 2, 1, 1⟩ 0) 1 = Finset.Icc (0 : ℤ) 1 ×ˢ Finset.Icc (0 : ℤ) 1 := by
  unfold sculptPicks
  rw [c6_box]
  apply Finset.filter_true_of_mem
  intro p hp
  obtain ⟨h1, h2⟩ := Finset.mem_product.mp hp
  rw [Finset.mem_Icc] at h1 h2
  have b1 : (0 : ℝ) ≤ (p.1 : ℝ) := by exact_mod_cast h1.1
  have b2 : (p.1 : ℝ) ≤ 1 := by exact_mod_cast h1.2
  have b3 : (0 : ℝ) ≤ (p.2 : ℝ) := by exact_mod_cast h2.1
  have b4 : (p.2 : ℝ) ≤ 1 := by exact_mod_cast h2.2
  unfold sculptDist vertexCell worldBrushRadius
  rw [hitVertX_at_vertex ⟨2, 2, 1, 1⟩ 0 (by norm_num) (by norm_num),
    hitVertZ_at_vertex ⟨2, 2, 1, 1⟩ 0 (by norm_num) (by norm_num)]
  rw [Real.sqrt_lt' (by norm_num)]
  push_cast
  nlinarith

lemma c6_var_pos : 0 < picksVar ⟨2, 2, 1, 1⟩ (Finset.Icc (0 : ℤ) 1 ×ˢ Finset.Icc (0 : ℤ) 1)
    (fun v => (v : ℝ)) := by
  have hicc : Finset.Icc (0 : ℤ) 1 = {0, 1} := rfl
  unfold picksVar picksMean pickIndex GeomParams.vpr
  rw [hicc]
  simp [Finset.sum_product, Finset.sum_insert, Finset.mem_singleton]
  norm_num

/-- C6 witness: on a 2×2-vertex grid with heights `0, 1, 2, 3` and a smooth
stroke at vertex `(0,0)` with world radius `10` covering all four vertices,
the variance within the brush radius strictly decreases. -/
theorem smooth_variance_convergence_witness :
    picksVar ⟨2, 2, 1, 1⟩
        (sculptPicks ⟨30, 30, 10, -200, 300⟩ ⟨2, 2, 1, 1⟩ (vertexX ⟨2, 2, 1, 1⟩ 0)
          (vertexZ ⟨2, 2, 1, 1⟩ 0) 1)
        (applySculptBounded ⟨30, 30, 10, -200, 300⟩ ⟨2, 2, 1, 1⟩ (vertexX ⟨2, 2, 1, 1⟩ 0)
          (vertexZ ⟨2, 2, 1, 1⟩ 0) 1 (0.2) Mode.smooth (fun v => (v : ℝ))) <
      picksVar ⟨2, 2, 1, 1⟩
        (sculptPicks ⟨30, 30, 10, -200, 300⟩ ⟨2, 2, 1, 1⟩ (vertexX ⟨2, 2, 1, 1⟩ 0)
          (vertexZ ⟨2, 2, 1, 1⟩ 0) 1)
        (fun v => (v : ℝ)) :=
  (smooth_variance_convergence ⟨30, 30, 10, -200, 300⟩ ⟨2, 2, 1, 1⟩
    (vertexX ⟨2, 2, 1, 1⟩ 0) (vertexZ ⟨2, 2, 1, 1⟩ 0) 1 (0.2) (fun v => (v : ℝ))
    (by rw [c6_picks]; exact ⟨(0, 0), by decide⟩)
    (by rw [c6_picks]; exact c6_var_pos)).2.1

/-- `_tileCenterLocal(i, j)` of the config-based `BallMarker`
(`character.js`, lines 63–70): center of main tile `(i, j)`,
`x = -W/2 + (i + 0.5) * TILE_SIZE`. -/
noncomputable def tileCenterLocalCfg (config : Config) (i j : ℤ) : ℝ × ℝ :=
  (-((config.TILES_X : ℝ) * config.TILE_SIZE) / 2 + ((i : ℝ) + 0.5) * config.TILE_SIZE,
   -((config.TILES_Y : ℝ) * config.TILE_SIZE) / 2 + ((j : ℝ) + 0.5) * config.TILE_SIZE)

/-- `_tileCenterLocal(i, j)` of the geometry-based `BallMarker`
(`character.js`, second revision, lines 208–213): cell center with
`tileW = width / wSeg`. -/
noncomputable def tileCenterLocalGeom (g : GeomParams) (i j : ℕ) : ℝ × ℝ :=
  (-g.width / 2 + ((i : ℝ) + 0.5) * (g.width / g.widthSegments),
   -g.height / 2 + ((j : ℝ) + 0.5) * (g.height / g.heightSegments))

/-- `_sampleTileHeight(i, j)` of the geometry-based `BallMarker`
(`character.js`, lines 215–221): average of the four corner heights given by
`_tileCornerVertexIndices`. -/
noncomputable def sampleTileHeight (g : GeomParams) (h : Heights) (i j : ℕ) : ℝ :=
  (h (j * g.vpr + i) + h (j * g.vpr + i + 1) +
    h ((j + 1) * g.vpr + i) + h ((j + 1) * g.vpr + i + 1)) / 4

/-- `_snapToTile` of the config-based marker (`character.js`, lines 107–113):
the marker's world position is the `localToWorld` image `T` of the tile
center lifted to the bilinear sample plus `hover`. -/
noncomputable def snapToTileCfg (config : Config) (g : GeomParams) (h : Heights)
    (T : ℝ → ℝ → ℝ → ℝ × ℝ × ℝ) (i j : ℤ) (hover : ℝ) : ℝ × ℝ × ℝ :=
  let c := tileCenterLocalCfg config i j
  T c.1 (sampleHeightLocalChar g h c.1 c.2 + hover) c.2

/-- `_snapToTile` of the geometry-based marker (`character.js`, lines
223–229): same, but the height is the average of the four corner heights. -/
noncomputable def snapToTileGeom (g : GeomParams) (h : Heights)
    (T : ℝ → ℝ → ℝ → ℝ × ℝ × ℝ) (i j : ℕ) (hover : ℝ) : ℝ × ℝ × ℝ :=
  let c := tileCenterLocalGeom g i j
  T c.1 (sampleTileHeight g h i j + hover) c.2

lemma floor_add_half (i : ℕ) : ⌊(i : ℝ) + 0.5⌋ = (i : ℤ) := by
  rw [show ((i : ℝ) + 0.5) = ((i : ℤ) : ℝ) + 0.5 by push_cast; ring]
  rw [Int.floor_int_add]
  norm_num

lemma bilinear_at_cell_center (g : GeomParams) (h : Heights) (i j : ℕ)
    (hw : 0 < g.width) (hht : 0 < g.height)
    (hi : i < g.widthSegments) (hj : j < g.heightSegments) :
    sampleHeightLocalChar g h (tileCenterLocalGeom g i j).1 (tileCenterLocalGeom g i j).2 =
      sampleTileHeight g h i j := by
  have hwne : g.width ≠ 0 := ne_of_gt hw
  have hhne : g.height ≠ 0 := ne_of_gt hht
  have hwsne : (g.widthSegments : ℝ) ≠ 0 := Nat.cast_ne_zero.mpr (by omega)
  have hhsne : (g.heightSegments : ℝ) ≠ 0 := Nat.cast_ne_zero.mpr (by omega)
  have hgx : ((tileCenterLocalGeom g i j).1 + g.width / 2) / g.width * g.widthSegments =
      (i : ℝ) + 0.5 := by
    unfold tileCenterLocalGeom
    field_simp
    ring
  have hgz : ((tileCenterLocalGeom g i j).2 + g.height / 2) / g.height * g.heightSegments =
      (j : ℝ) + 0.5 := by
    unfold tileCenterLocalGeom
    field_simp
    ring
  have hx0 : clampI (i : ℤ) 0 g.widthSegments = (i : ℤ) := by unfold clampI; omega
  have hz0 : clampI (j : ℤ) 0 g.heightSegments = (j : ℤ) := by unfold clampI; omega
  have hx1 : min (g.widthSegments : ℤ) ((i : ℤ) + 1) = ((i + 1 : ℕ) : ℤ) := by
    push_cast
    omega
  have hz1 : min (g.heightSegments : ℤ) ((j : ℤ) + 1) = ((j + 1 : ℕ) : ℤ) := by
    push_cast
    omega
  have hfr : clampR ((i : ℝ) + 0.5 - (i : ℤ)) 0 1 = 0.5 := by
    unfold clampR
    push_cast
    norm_num
  have hfz : clampR ((j : ℝ) + 0.5 - (j : ℤ)) 0 1 = 0.5 := by
    unfold clampR
    push_cast
    norm_num
  simp only [sampleHeightLocalChar]
  rw [hgx, hgz, floor_add_half, floor_add_half, hx0, hz0, hx1, hz1, hfr, hfz]
  rw [index_toNat_eq g i j, index_toNat_eq g (i + 1) j, index_toNat_eq g i (j + 1),
    index_toNat_eq g (i + 1) (j + 1)]
  unfold sampleTileHeight vIndex
  simp only [← Nat.add_assoc]
  ring

/-- C7: after `refresh()` (which re-runs `_snapToTile` on the stored tile
index), the marker's position is the terrain's local-to-world transform `T`
applied to the tile center lifted by the bilinear height sample plus the
hover offset — for the bilinear-sampling marker revision directly, and for
the corner-averaging revision because the average of the four corner heights
equals the bilinear sample at the cell center. -/
theorem marker_refresh_height (config : Config) (g : GeomParams) (h : Heights)
    (T : ℝ → ℝ → ℝ → ℝ × ℝ × ℝ) (hover : ℝ) (i j : ℕ)
    (hw : 0 < g.width) (hht : 0 < g.height)
    (hi : i < g.widthSegments) (hj : j < g.heightSegments) :
    (∀ i' j' : ℤ, snapToTileCfg config g h T i' j' hover =
      T (tileCenterLocalCfg config i' j').1
        (sampleHeightLocalChar g h (tileCenterLocalCfg config i' j').1
          (tileCenterLocalCfg config i' j').2 + hover)
        (tileCenterLocalCfg config i' j').2) ∧
    snapToTileGeom g h T i j hover =
      T (tileCenterLocalGeom g i j).1
        (sampleHeightLocalChar g h (tileCenterLocalGeom g i j).1
          (tileCenterLocalGeom g i j).2 + hover)
        (tileCenterLocalGeom g i j).2 := by
  refine ⟨fun i' j' => rfl, ?_⟩
  unfold snapToTileGeom
  rw [bilinear_at_cell_center g h i j hw hht hi hj]

/-- C7 witness: with the identity transform, heights `h v = v`, and tile
`(0, 0)` of a 2-cell grid, both marker revisions sit at the bilinear sample
plus hover. -/
theorem marker_refresh_height_witness :
    (∀ i' j' : ℤ, snapToTileCfg ⟨30, 30, 32, -200, 300⟩ ⟨4, 4, 2, 2⟩ (fun v => (v : ℝ))
        (fun x y z => (x, y, z)) i' j' 2 =
      (fun x y z => (x, y, z)) (tileCenterLocalCfg ⟨30, 30, 32, -200, 300⟩ i' j').1
        (sampleHeightLocalChar ⟨4, 4, 2, 2⟩ (fun v => (v : ℝ))
          (tileCenterLocalCfg ⟨30, 30, 32, -200, 300⟩ i' j').1
          (tileCenterLocalCfg ⟨30, 30, 32, -200, 300⟩ i' j').2 + 2)
        (tileCenterLocalCfg ⟨30, 30, 32, -200, 300⟩ i' j').2) ∧
    snapToTileGeom ⟨4, 4, 2, 2⟩ (fun v => (v : ℝ)) (fun x y z => (x, y, z)) 0 0 2 =
      (fun x y z => (x, y, z)) (tileCenterLocalGeom ⟨4, 4, 2, 2⟩ 0 0).1
        (sampleHeightLocalChar ⟨4, 4, 2, 2⟩ (fun v => (v : ℝ))
          (tileCenterLocalGeom ⟨4, 4, 2, 2⟩ 0 0).1
          (tileCenterLocalGeom ⟨4, 4, 2, 2⟩ 0 0).2 + 2)
        (tileCenterLocalGeom ⟨4, 4, 2, 2⟩ 0 0).2 :=
  marker_refresh_height ⟨30, 30, 32, -200, 300⟩ ⟨4, 4, 2, 2⟩ (fun v => (v : ℝ))
    (fun x y z => (x, y, z)) 2 0 0 (by norm_num) (by norm_num) (by norm_num) (by norm_num)

/-- The duplicate-rejecting placement loop of `populateTrees` (`terrain.js`
lines 500–513). Each element of the list models one
`((Math.random()*TILES_X)|0, (Math.random()*TILES_Y)|0)` draw of the
`while (placed < max)` loop: a drawn tile already in `used` is skipped
(`continue`), otherwise it is added to `used` and a tree is placed on it.
The loop stops as soon as `mx` tiles are placed. -/
def populateTreesAux (mx : ℕ) : List (ℕ × ℕ) → Finset (ℕ × ℕ) → ℕ → List (ℕ × ℕ)
  | [], _, _ => []
  | p :: rest, used, placed =>
    if mx ≤ placed then []
    else if p ∈ used then populateTreesAux mx rest used placed
    else p :: populateTreesAux mx rest (insert p used) (placed + 1)

/-- `populateTrees(count)` (`terrain.js` 484–515): place
`max = Math.min(count, TILES_X * TILES_Y)` trees on distinct random tiles,
returning the list of tiles that received a tree, in placement order. -/
def populateTrees (count TX TY : ℕ) (proposals : List (ℕ × ℕ)) : List (ℕ × ℕ) :=
  populateTreesAux (min count (TX * TY)) proposals ∅ 0

lemma populateTreesAux_length (mx TX TY : ℕ) :
    ∀ (l : List (ℕ × ℕ)) (used : Finset (ℕ × ℕ)) (placed : ℕ),
      (∀ t ∈ Finset.range TX ×ˢ Finset.range TY, t ∈ used ∨ t ∈ l) →
      (∀ p ∈ l, p.1 < TX ∧ p.2 < TY) →
      used ⊆ Finset.range TX ×ˢ Finset.range TY →
      placed = used.card →
      (populateTreesAux mx l used placed).length = min mx (TX * TY) - placed := by
  intro l
  induction l with
  | nil =>
    intro used placed hcov _hb hsub hcard
    have hall : Finset.range TX ×ˢ Finset.range TY ⊆ used := by
      intro t ht
      rcases hcov t ht with h | h
      · exact h
      · simp at h
    have hused : used = Finset.range TX ×ˢ Finset.range TY :=
      Finset.Subset.antisymm hsub hall
    have : placed = TX * TY := by
      rw [hcard, hused, Finset.card_product, Finset.card_range, Finset.card_range]
    simp only [populateTreesAux, List.length_nil]
    omega
  | cons p rest ih =>
    intro used placed hcov hb hsub hcard
    simp only [populateTreesAux]
    by_cases hstop : mx ≤ placed
    · rw [if_pos hstop]
      simp only [List.length_nil]
      omega
    · rw [if_neg hstop]
      by_cases hdup : p ∈ used
      · rw [if_pos hdup]
        apply ih used placed _ (fun q hq => hb q (List.mem_cons_of_mem p hq)) hsub hcard
        intro t ht
        rcases hcov t ht with h | h
        · exact Or.inl h
        · rcases List.mem_cons.mp h with rfl | h
          · exact Or.inl hdup
          · exact Or.inr h
      · rw [if_neg hdup]
        have hpall : p ∈ Finset.range TX ×ˢ Finset.range TY := by
          have := hb p (List.mem_cons_self p rest)
          simp only [Finset.mem_product, Finset.mem_range]
          exact this
        have hlt : used.card < TX * TY := by
          have hss : used ⊂ Finset.range TX ×ˢ Finset.range TY :=
            (Finset.ssubset_iff_of_subset hsub).mpr ⟨p, hpall, hdup⟩
          have := Finset.card_lt_card hss
          rwa [Finset.card_product, Finset.card_range, Finset.card_range] at this
        have hrec := ih (insert p used) (placed + 1)
          (fun t ht => by
            rcases hcov t ht with h | h
            · exact Or.inl (Finset.mem_insert_of_mem h)
            · rcases List.mem_cons.mp h with rfl | h
              · exact Or.inl (Finset.mem_insert_self t used)
              · exact Or.inr h)
          (fun q hq => hb q (List.mem_cons_of_mem p hq))
          (Finset.insert_subset hpall hsub)
          (by rw [Finset.card_insert_of_not_mem hdup, hcard])
        simp only [List.length_cons, hrec]
        omega

lemma populateTreesAux_nodup (mx : ℕ) :
    ∀ (l : List (ℕ × ℕ)) (used : Finset (ℕ × ℕ)) (placed : ℕ),
      (populateTreesAux mx l used placed).Nodup ∧
      (∀ p ∈ populateTreesAux mx l used placed, p ∈ l ∧ p ∉ used) := by
  intro l
  induction l with
  | nil =>
    intro used placed
    simp [populateTreesAux]
  | cons p rest ih =>
    intro used placed
    simp only [populateTreesAux]
    by_cases hstop : mx ≤ placed
    · rw [if_pos hstop]
      simp
    · rw [if_neg hstop]
      by_cases hdup : p ∈ used
      · rw [if_pos hdup]
        refine ⟨(ih used placed).1, fun q hq => ?_⟩
        obtain ⟨hq1, hq2⟩ := (ih used placed).2 q hq
        exact ⟨List.mem_cons_of_mem p hq1, hq2⟩
      · rw [if_neg hdup]
        obtain ⟨htnd, htmem⟩ := ih (insert p used) (placed + 1)
        constructor
        · rw [List.nodup_cons]
          refine ⟨fun hmem => ?_, htnd⟩
          exact (htmem p hmem).2 (Finset.mem_insert_self p used)
        · intro q hq
          rcases List.mem_cons.mp hq with rfl | hq
          · exact ⟨List.mem_cons_self q rest, hdup⟩
          · obtain ⟨hq1, hq2⟩ := htmem q hq
            exact ⟨List.mem_cons_of_mem p hq1,
              fun hqu => hq2 (Finset.mem_insert_of_mem hqu)⟩

/-- C9: if the random draw stream produces every tile pair (and only
in-range pairs), `populateTrees(count)` stops with exactly
`min(count, TILES_X*TILES_Y)` trees, on pairwise-distinct in-range tiles —
in particular exactly `count` trees for `0 < count ≤ TILES_X*TILES_Y`, and
exactly `TILES_X*TILES_Y` trees for larger `count`, with the
duplicate-rejection loop terminating within the draw stream. -/
theorem populateTrees_count_distinct (count TX TY : ℕ) (proposals : List (ℕ × ℕ))
    (hcov : ∀ i < TX, ∀ j < TY, (i, j) ∈ proposals)
    (hbound : ∀ p ∈ proposals, p.1 < TX ∧ p.2 < TY) :
    (populateTrees count TX TY proposals).length = min count (TX * TY) ∧
    (populateTrees count TX TY proposals).Nodup ∧
    (∀ p ∈ populateTrees count TX TY proposals, p.1 < TX ∧ p.2 < TY) := by
  have hlen := populateTreesAux_length (min count (TX * TY)) TX TY proposals ∅ 0
    (fun t ht => by
      obtain ⟨h1, h2⟩ := Finset.mem_product.mp ht
      rw [Finset.mem_range] at h1 h2
      exact Or.inr (by
        have := hcov t.1 h1 t.2 h2
        simpa using this))
    hbound (Finset.empty_subset _) (by simp)
  have hnd := populateTreesAux_nodup (min count (TX * TY)) proposals ∅ 0
  refine ⟨?_, hnd.1, fun p hp => hbound p (hnd.2 p hp).1⟩
  unfold populateTrees
  rw [hlen]
  omega

/-- C9 witness: on a 2×2 tile grid with `count = 4` (the full capacity) and
a draw stream containing duplicates but covering all four tiles, exactly 4
trees are placed on 4 distinct tiles. -/
theorem populateTrees_count_distinct_witness :
    (populateTrees 4 2 2 [(0, 0), (0, 0), (1, 0), (0, 1), (1, 1), (1, 0)]).length =
      min 4 (2 * 2) ∧
    (populateTrees 4 2 2 [(0, 0), (0, 0), (1, 0), (0, 1), (1, 1), (1, 0)]).Nodup ∧
    (∀ p ∈ populateTrees 4 2 2 [(0, 0), (0, 0), (1, 0), (0, 1), (1, 1), (1, 0)],
      p.1 < 2 ∧ p.2 < 2) :=
  populateTrees_count_distinct 4 2 2 [(0, 0), (0, 0), (1, 0), (0, 1), (1, 1), (1, 0)]
    (by decide) (by decide)

lemma vertexCell_pos (g : GeomParams) (hw : 0 < g.width) (hws : 1 ≤ g.widthSegments) :
    0 < vertexCell g := by
  unfold vertexCell
  exact div_pos hw (by exact_mod_cast Nat.pos_of_ne_zero (by omega))

lemma self_decode (v : ℕ) (g : GeomParams) (hvpr : 0 < g.vpr) :
    v = vIndex g (v % g.vpr) (v / g.vpr) := by
  unfold vIndex
  have h1 := Nat.div_add_mod v g.vpr
  rw [Nat.mul_comm] at h1
  omega

lemma sculptDist_eq_fullDist (g : GeomParams) (hc hr col row : ℕ)
    (hw : g.width ≠ 0) (hht : g.height ≠ 0)
    (hwsne : (g.widthSegments : ℝ) ≠ 0) (hhsne : (g.heightSegments : ℝ) ≠ 0)
    (hsq : g.width / g.widthSegments = g.height / g.heightSegments) :
    sculptDist g (vertexX g hc) (vertexZ g hr) col row =
      Real.sqrt ((vertexX g col - vertexX g hc) ^ 2 +
        (vertexZ g row - vertexZ g hr) ^ 2) := by
  unfold sculptDist
  rw [hitVertX_at_vertex g hc hw hwsne, hitVertZ_at_vertex g hr hht hhsne]
  unfold vertexCell vertexX vertexZ
  rw [← hsq]
  congr 1
  push_cast
  ring

/-- C8 (amended): when the hit point lies exactly on a fine-grid vertex, the
vertex cells are square (`width/widthSegments = height/heightSegments`) and
the mode is raise or lower, the bounded-scan brush and the full-scan brush
produce identical height arrays; the smooth branches genuinely differ (see
the counterexample). -/
theorem bounded_full_equivalence (config : Config) (g : GeomParams)
    (radius step : ℝ) (mode : Mode) (h : Heights) (hc hr : ℕ)
    (hw : 0 < g.width) (hht : 0 < g.height)
    (hws : 1 ≤ g.widthSegments) (hhs : 1 ≤ g.heightSegments)
    (hcol : hc ≤ g.widthSegments) (hrow : hr ≤ g.heightSegments)
    (hsq : g.width / g.widthSegments = g.height / g.heightSegments)
    (hmode : mode ≠ Mode.smooth) :
    ∀ v : ℕ, applySculptBounded config g (vertexX g hc) (vertexZ g hr) radius step mode h v =
      applySculptFull config g (vertexX g hc) (vertexZ g hr) radius step mode h v := by
  intro v
  have hwne : g.width ≠ 0 := ne_of_gt hw
  have hhne : g.height ≠ 0 := ne_of_gt hht
  have hwsne : (g.widthSegments : ℝ) ≠ 0 := Nat.cast_ne_zero.mpr (by omega)
  have hhsne : (g.heightSegments : ℝ) ≠ 0 := Nat.cast_ne_zero.mpr (by omega)
  have hvpr : 0 < g.vpr := by unfold GeomParams.vpr; omega
  have hcolle : v % g.vpr ≤ g.widthSegments := by
    have h1 := Nat.mod_lt v hvpr
    have h2 : g.vpr = g.widthSegments + 1 := rfl
    omega
  have hcell := vertexCell_pos g hw hws
  have hdeq := sculptDist_eq_fullDist g hc hr (v % g.vpr) (v / g.vpr)
    hwne hhne hwsne hhsne hsq
  have hcond : (((v % g.vpr : ℕ) : ℤ), ((v / g.vpr : ℕ) : ℤ)) ∈
        sculptBox config g (vertexX g hc) (vertexZ g hr) radius ∧
      sculptDist g (vertexX g hc) (vertexZ g hr) ((v % g.vpr : ℕ) : ℤ)
          ((v / g.vpr : ℕ) : ℤ) < worldBrushRadius config radius ↔
      v < g.count ∧
        Real.sqrt ((vertexX g (v % g.vpr) - vertexX g hc) ^ 2 +
          (vertexZ g (v / g.vpr) - vertexZ g hr) ^ 2) < worldBrushRadius config radius := by
    constructor
    · rintro ⟨hbox, hd⟩
      refine ⟨?_, by rwa [← hdeq]⟩
      obtain ⟨-, hz1⟩ := Finset.mem_product.mp hbox
      rw [Finset.mem_Icc] at hz1
      have hrowle : v / g.vpr ≤ g.heightSegments := by
        have h2 : ((v / g.vpr : ℕ) : ℤ) ≤ (g.heightSegments : ℤ) :=
          le_trans hz1.2 (min_le_left _ _)
        exact_mod_cast h2
      rw [self_decode v g hvpr]
      exact vIndex_lt_count g _ _ hcolle hrowle
    · rintro ⟨hcnt, hd⟩
      have hd' : sculptDist g (vertexX g hc) (vertexZ g hr) ((v % g.vpr : ℕ) : ℤ)
          ((v / g.vpr : ℕ) : ℤ) < worldBrushRadius config radius := by rwa [hdeq]
      refine ⟨?_, hd'⟩
      have hrowle : v / g.vpr ≤ g.heightSegments := by
        have hcount_eq : g.count = g.vpr * (g.heightSegments + 1) := by
          unfold GeomParams.count GeomParams.vpr
          ring
        have hv2 : v < g.vpr * (g.heightSegments + 1) := hcount_eq ▸ hcnt
        have := Nat.div_lt_of_lt_mul hv2
        omega
      -- distance bounds give the box bounds
      have habs : ∀ a b : ℝ, |a| ≤ Real.sqrt (a ^ 2 + b ^ 2) := fun a b => by
        rw [← Real.sqrt_sq_eq_abs]
        exact Real.sqrt_le_sqrt (by nlinarith [sq_nonneg b])
      have habs2 : ∀ a b : ℝ, |b| ≤ Real.sqrt (a ^ 2 + b ^ 2) := fun a b => by
        rw [← Real.sqrt_sq_eq_abs]
        exact Real.sqrt_le_sqrt (by nlinarith [sq_nonneg a])
      have hda : |(((v % g.vpr : ℕ) : ℝ) - hc) * vertexCell g| <
          worldBrushRadius config radius := by
        apply lt_of_le_of_lt _ hd'
        unfold sculptDist
        rw [hitVertX_at_vertex g hc hwne hwsne, hitVertZ_at_vertex g hr hhne hhsne]
        push_cast
        exact habs _ _
      have hdb : |(((v / g.vpr : ℕ) : ℝ) - hr) * vertexCell g| <
          worldBrushRadius config radius := by
        apply lt_of_le_of_lt _ hd'
        unfold sculptDist
        rw [hitVertX_at_vertex g hc hwne hwsne, hitVertZ_at_vertex g hr hhne hhsne]
        push_cast
        exact habs2 _ _
      have hra : |(((v % g.vpr : ℕ) : ℝ) - hc)| <
          worldBrushRadius config radius / vertexCell g := by
        rw [lt_div_iff₀ hcell]
        calc |(((v % g.vpr : ℕ) : ℝ) - hc)| * vertexCell g
            = |(((v % g.vpr : ℕ) : ℝ) - hc) * vertexCell g| := by
              rw [abs_mul, abs_of_pos hcell]
          _ < _ := hda
      have hrb : |(((v / g.vpr : ℕ) : ℝ) - hr)| <
          worldBrushRadius config radius / vertexCell g := by
        rw [lt_div_iff₀ hcell]
        calc |(((v / g.vpr : ℕ) : ℝ) - hr)| * vertexCell g
            = |(((v / g.vpr : ℕ) : ℝ) - hr) * vertexCell g| := by
              rw [abs_mul, abs_of_pos hcell]
          _ < _ := hdb
      have hceil : worldBrushRadius config radius / vertexCell g ≤
          (radiusVerts config g radius : ℝ) := Int.le_ceil _
      have hia : |((v % g.vpr : ℕ) : ℤ) - (hc : ℤ)| < radiusVerts config g radius := by
        have := lt_of_lt_of_le hra hceil
        exact_mod_cast (by push_cast; exact this :
          (|((v % g.vpr : ℕ) : ℤ) - (hc : ℤ)| : ℝ) < (radiusVerts config g radius : ℝ))
      have hib : |((v / g.vpr : ℕ) : ℤ) - (hr : ℤ)| < radiusVerts config g radius := by
        have := lt_of_lt_of_le hrb hceil
        exact_mod_cast (by push_cast; exact this :
          (|((v / g.vpr : ℕ) : ℤ) - (hr : ℤ)| : ℝ) < (radiusVerts config g radius : ℝ))
      unfold sculptBox
      rw [hitVertX_at_vertex g hc hwne hwsne, hitVertZ_at_vertex g hr hhne hhsne]
      simp only [Finset.mem_product, Finset.mem_Icc]
      rw [abs_lt] at hia hib
      have h0a : (0 : ℤ) ≤ ((v % g.vpr : ℕ) : ℤ) := Int.natCast_nonneg _
      have h0b : (0 : ℤ) ≤ ((v / g.vpr : ℕ) : ℤ) := Int.natCast_nonneg _
      have hwsz : ((v % g.vpr : ℕ) : ℤ) ≤ (g.widthSegments : ℤ) := by exact_mod_cast hcolle
      have hhsz : ((v / g.vpr : ℕ) : ℤ) ≤ (g.heightSegments : ℤ) := by exact_mod_cast hrowle
      omega
  cases mode with
  | smooth => exact absurd rfl hmode
  | raise =>
    simp only [applySculptBounded, applySculptFull]
    by_cases hcnd : (((v % g.vpr : ℕ) : ℤ), ((v / g.vpr : ℕ) : ℤ)) ∈
        sculptBox config g (vertexX g hc) (vertexZ g hr) radius ∧
      sculptDist g (vertexX g hc) (vertexZ g hr) ((v % g.vpr : ℕ) : ℤ)
          ((v / g.vpr : ℕ) : ℤ) < worldBrushRadius config radius
    · rw [if_pos hcnd, if_pos (hcond.mp hcnd), hdeq]
      rw [if_neg (show ¬ (Mode.raise = Mode.smooth) by simp)]
    · rw [if_neg hcnd, if_neg (fun hfc => hcnd (hcond.mpr hfc))]
  | lower =>
    simp only [applySculptBounded, applySculptFull]
    by_cases hcnd : (((v % g.vpr : ℕ) : ℤ), ((v / g.vpr : ℕ) : ℤ)) ∈
        sculptBox config g (vertexX g hc) (vertexZ g hr) radius ∧
      sculptDist g (vertexX g hc) (vertexZ g hr) ((v % g.vpr : ℕ) : ℤ)
          ((v / g.vpr : ℕ) : ℤ) < worldBrushRadius config radius
    · rw [if_pos hcnd, if_pos (hcond.mp hcnd), hdeq]
      rw [if_neg (show ¬ (Mode.lower = Mode.smooth) by simp)]
    · rw [if_neg hcnd, if_neg (fun hfc => hcnd (hcond.mpr hfc))]

lemma applySculptFull_center_smooth (config : Config) (g : GeomParams)
    (radius step : ℝ) (h : Heights) (hc hr : ℕ)
    (hcol : hc ≤ g.widthSegments) (hrow : hr ≤ g.heightSegments)
    (hR : 0 < worldBrushRadius config radius) :
    applySculptFull config g (vertexX g hc) (vertexZ g hr) radius step Mode.smooth h
        (vIndex g hc hr) =
      clampR (h (vIndex g hc hr) + step * 0.1) config.MIN_H config.MAX_H := by
  simp only [applySculptFull]
  rw [vIndex_mod g hc hr hcol, vIndex_div g hc hr hcol]
  have hzero : Real.sqrt ((vertexX g hc - vertexX g hc) ^ 2 +
      (vertexZ g hr - vertexZ g hr) ^ 2) = 0 := by simp
  rw [if_pos ⟨vIndex_lt_count g hc hr hcol hrow, by rw [hzero]; exact hR⟩]
  rw [hzero, zero_div, zero_mul, Real.cos_zero, if_pos trivial]
  norm_num

lemma applySculptBounded_smooth_flat (config : Config) (g : GeomParams)
    (hx hz radius step : ℝ) (v : ℕ) :
    applySculptBounded config g hx hz radius step Mode.smooth (fun _ => 0) v = 0 := by
  simp only [applySculptBounded]
  by_cases hp : sculptPicks config g hx hz radius = ∅
  · rw [if_pos hp]
  · rw [if_neg hp]
    simp

/-- C8 counterexample: on a flat field at height `0`, a smooth stroke hit
exactly at vertex `(0,0)` with world radius `5` leaves the bounded-scan
result at `0` (every height already equals the mean), while the full-scan
revision — whose "smooth" branch is a weak raise `delta * 0.1` — moves the
center vertex to `0.1`: the two brushes do not produce identical height
arrays. -/
theorem bounded_full_counterexample :
    applySculptBounded ⟨30, 30, 1, -200, 300⟩ ⟨2, 2, 1, 1⟩ (vertexX ⟨2, 2, 1, 1⟩ 0)
        (vertexZ ⟨2, 2, 1, 1⟩ 0) 5 1 Mode.smooth (fun _ => 0) (vIndex ⟨2, 2, 1, 1⟩ 0 0) = 0 ∧
    applySculptFull ⟨30, 30, 1, -200, 300⟩ ⟨2, 2, 1, 1⟩ (vertexX ⟨2, 2, 1, 1⟩ 0)
        (vertexZ ⟨2, 2, 1, 1⟩ 0) 5 1 Mode.smooth (fun _ => 0) (vIndex ⟨2, 2, 1, 1⟩ 0 0) =
      0.1 ∧
    (0 : ℝ) ≠ 0.1 := by
  refine ⟨applySculptBounded_smooth_flat _ _ _ _ _ _ _, ?_, by norm_num⟩
  rw [applySculptFull_center_smooth ⟨30, 30, 1, -200, 300⟩ ⟨2, 2, 1, 1⟩ 5 1 (fun _ => 0) 0 0
    (by norm_num) (by norm_num) (by norm_num [worldBrushRadius])]
  norm_num [clampR]

/-- C8 witness: the amended equivalence theorem evaluated on a 2×2-vertex
square-cell grid, raise mode, hit at vertex `(0,0)`: the bounded-scan and
full-scan brushes agree on every vertex. -/
theorem bounded_full_equivalence_witness :
    applySculptBounded ⟨30, 30, 1, -200, 300⟩ ⟨2, 2, 1, 1⟩ (vertexX ⟨2, 2, 1, 1⟩ 0)
        (vertexZ ⟨2, 2, 1, 1⟩ 0) 1.3 (0.7) Mode.raise (fun w => (w : ℝ)) 0 =
      applySculptFull ⟨30, 30, 1, -200, 300⟩ ⟨2, 2, 1, 1⟩ (vertexX ⟨2, 2, 1, 1⟩ 0)
        (vertexZ ⟨2, 2, 1, 1⟩ 0) 1.3 (0.7) Mode.raise (fun w => (w : ℝ)) 0 :=
  bounded_full_equivalence ⟨30, 30, 1, -200, 300⟩ ⟨2, 2, 1, 1⟩ 1.3 (0.7) Mode.raise
    (fun w => (w : ℝ)) 0 0 (by norm_num) (by norm_num) (by norm_num) (by norm_num)
    (by norm_num) (by norm_num) (by norm_num) (by simp) 0

open Classical in
/-- The set of tiles painted by `paintTextureOnTile(ci, cj, texture, radius)`
(`terrain.js` 329–360): the scan box `[ci-radius, ci+radius] ×
[cj-radius, cj+radius]` restricted to in-bounds tiles whose tile-space
distance `Math.hypot(i-ci, j-cj)` is at most `radius`. -/
noncomputable def paintTiles (TX TY : ℕ) (ci cj : ℤ) (radius : ℕ) : Finset (ℤ × ℤ) :=
  (Finset.Icc (ci - radius) (ci + radius) ×ˢ Finset.Icc (cj - radius) (cj + radius)).filter
    (fun p => 0 ≤ p.1 ∧ p.1 < TX ∧ 0 ≤ p.2 ∧ p.2 < TY ∧
      Real.sqrt (((p.1 - ci : ℤ) : ℝ) ^ 2 + ((p.2 - cj : ℤ) : ℝ) ^ 2) ≤ radius)

/-- Vertex `v` belongs to the closed `(subdiv+1) × (subdiv+1)` vertex block
of tile `(i, j)`: `v = vertY * totalVertsX + vertX` with
`vertX = i*subdiv + subI`, `vertY = j*subdiv + subJ`, `0 ≤ subI, subJ ≤ subdiv`
and `totalVertsX = TILES_X*subdiv + 1`. -/
def inTileBlock (TX S : ℕ) (i j : ℤ) (v : ℕ) : Prop :=
  ∃ subI subJ : ℕ, subI ≤ S ∧ subJ ≤ S ∧
    (j * S + subJ) * (TX * S + 1) + (i * S + subI) = (v : ℤ)

open Classical in
/-- `paintTextureOnTile(ci, cj, texture, radius)` (`terrain.js` 329–360)
acting on the x-channel of the color attribute (`colorAttr.setX`): for every
painted tile, every vertex of its block with `vertIndex < colorAttr.count`
receives `paintValue` (`1.0` when `texture === 'leaves'`, else `0.0`); since
all writes store the same value, the final channel is a function of the
written set. -/
noncomputable def paintTextureOnTile (TX TY S : ℕ) (ci cj : ℤ) (texture : String)
    (radius : ℕ) (count : ℕ) (color : ℕ → ℝ) : ℕ → ℝ :=
  let paintValue : ℝ := if texture = "leaves" then 1.0 else 0.0
  fun v =>
    if (∃ p ∈ paintTiles TX TY ci cj radius, inTileBlock TX S p.1 p.2 v) ∧ v < count
    then paintValue
    else color v

open Classical in
/-- C10: for every center `(ci, cj)` — including out-of-range ones — radius
and texture name, the set of vertices `paintTextureOnTile` writes is exactly
the union, over in-bounds tiles `(i, j)` with `hypot(i-ci, j-cj) ≤ radius`,
of the closed `(subdivisions+1)²` vertex block of tile `(i, j)` (so shared
boundary vertices of adjacent unpainted tiles are overwritten too); every
such write lands inside the color attribute (the `vertIndex < count` guard
never rejects), and every other vertex keeps its previous value. -/
theorem paintTexture_writes (TX TY S : ℕ) (ci cj : ℤ) (texture : String)
    (radius count : ℕ) (color : ℕ → ℝ)
    (hS : 1 ≤ S) (hcount : count = (TX * S + 1) * (TY * S + 1)) (v : ℕ) :
    paintTextureOnTile TX TY S ci cj texture radius count color v =
      if (∃ i j : ℤ, 0 ≤ i ∧ i < TX ∧ 0 ≤ j ∧ j < TY ∧
          Real.sqrt (((i - ci : ℤ) : ℝ) ^ 2 + ((j - cj : ℤ) : ℝ) ^ 2) ≤ radius ∧
          inTileBlock TX S i j v)
      then (if texture = "leaves" then (1 : ℝ) else 0) else color v := by
  have hiff : ((∃ p ∈ paintTiles TX TY ci cj radius, inTileBlock TX S p.1 p.2 v) ∧
      v < count) ↔
      (∃ i j : ℤ, 0 ≤ i ∧ i < TX ∧ 0 ≤ j ∧ j < TY ∧
        Real.sqrt (((i - ci : ℤ) : ℝ) ^ 2 + ((j - cj : ℤ) : ℝ) ^ 2) ≤ radius ∧
        inTileBlock TX S i j v) := by
    constructor
    · rintro ⟨⟨p, hp, hblk⟩, -⟩
      obtain ⟨-, hfilt⟩ := Finset.mem_filter.mp hp
      exact ⟨p.1, p.2, hfilt.1, hfilt.2.1, hfilt.2.2.1, hfilt.2.2.2.1, hfilt.2.2.2.2, hblk⟩
    · rintro ⟨i, j, h1, h2, h3, h4, h5, hblk⟩
      have habs : ∀ a b : ℝ, |a| ≤ Real.sqrt (a ^ 2 + b ^ 2) := fun a b => by
        rw [← Real.sqrt_sq_eq_abs]
        exact Real.sqrt_le_sqrt (by nlinarith [sq_nonneg b])
      have habs2 : ∀ a b : ℝ, |b| ≤ Real.sqrt (a ^ 2 + b ^ 2) := fun a b => by
        rw [← Real.sqrt_sq_eq_abs]
        exact Real.sqrt_le_sqrt (by nlinarith [sq_nonneg a])
      have hba : |i - ci| ≤ (radius : ℤ) := by
        have := le_trans (habs ((i - ci : ℤ) : ℝ) ((j - cj : ℤ) : ℝ)) h5
        exact_mod_cast (by push_cast at this ⊢; exact this :
          ((|i - ci| : ℤ) : ℝ) ≤ ((radius : ℤ) : ℝ))
      have hbb : |j - cj| ≤ (radius : ℤ) := by
        have := le_trans (habs2 ((i - ci : ℤ) : ℝ) ((j - cj : ℤ) : ℝ)) h5
        exact_mod_cast (by push_cast at this ⊢; exact this :
          ((|j - cj| : ℤ) : ℝ) ≤ ((radius : ℤ) : ℝ))
      have hmem : (i, j) ∈ paintTiles TX TY ci cj radius := by
        unfold paintTiles
        rw [Finset.mem_filter]
        refine ⟨?_, h1, h2, h3, h4, h5⟩
        simp only [Finset.mem_product, Finset.mem_Icc]
        rw [abs_le] at hba hbb
        omega
      refine ⟨⟨(i, j), hmem, hblk⟩, ?_⟩
      obtain ⟨subI, subJ, hsi, hsj, heq⟩ := hblk
      have hvX : i * S + subI ≤ (TX : ℤ) * S := by
        have : i * S ≤ ((TX : ℤ) - 1) * S := by
          apply mul_le_mul_of_nonneg_right (by omega) (by positivity)
        have hsi' : (subI : ℤ) ≤ S := by exact_mod_cast hsi
        nlinarith
      have hvY : j * S + subJ ≤ (TY : ℤ) * S := by
        have : j * S ≤ ((TY : ℤ) - 1) * S := by
          apply mul_le_mul_of_nonneg_right (by omega) (by positivity)
        have hsj' : (subJ : ℤ) ≤ S := by exact_mod_cast hsj
        nlinarith
      have hvpos : (0 : ℤ) ≤ j * S + subJ := by positivity
      have hvX0 : (0 : ℤ) ≤ i * S + subI := by positivity
      have hvlt : (v : ℤ) < ((TX : ℤ) * S + 1) * ((TY : ℤ) * S + 1) := by
        rw [← heq]
        nlinarith
      rw [hcount]
      exact_mod_cast (by push_cast; exact hvlt :
        (v : ℤ) < (((TX * S + 1) * (TY * S + 1) : ℕ) : ℤ))
  unfold paintTextureOnTile
  by_cases hcnd : (∃ p ∈ paintTiles TX TY ci cj radius, inTileBlock TX S p.1 p.2 v) ∧
      v < count
  · rw [if_pos hcnd, if_pos (hiff.mp hcnd)]
    norm_num
  · rw [if_neg hcnd, if_neg (fun hrhs => hcnd (hiff.mpr hrhs))]

open Classical in
/-- C10 witness: on a 2×2-tile grid with one subdivision per tile (a 3×3
vertex grid), painting 'leaves' with radius 1 at tile `(0,0)` writes `1.0`
to vertex 4 — the shared corner of all four tiles — exactly as the union
characterization states. -/
theorem paintTexture_writes_witness :
    paintTextureOnTile 2 2 1 0 0 "leaves" 1 9 (fun _ => 0) 4 =
      if (∃ i j : ℤ, 0 ≤ i ∧ i < 2 ∧ 0 ≤ j ∧ j < 2 ∧
          Real.sqrt (((i - 0 : ℤ) : ℝ) ^ 2 + ((j - 0 : ℤ) : ℝ) ^ 2) ≤ 1 ∧
          inTileBlock 2 1 i j 4)
      then (if "leaves" = "leaves" then (1 : ℝ) else 0) else (fun _ => (0 : ℝ)) 4 := by
  simpa using paintTexture_writes 2 2 1 0 0 "leaves" 1 9 (fun _ => 0) (by norm_num)
    (by norm_num) 4

end TerrainCreator
